import Mathlib

/-!
Verification development for the MediaWarden reconciliation and matching
engine.  The Python sources under app/services (filesystem.py,
qbittorrent.py, trash.py) are shallowly embedded: Python strings become
lists of characters, SQLAlchemy rows become Lean structures, dictionaries
become association lists with the same overwrite and iteration semantics,
and every stateful loop becomes an explicit fold.  Fields that no claim
mentions (timestamps used only for logging, the resolution probe result,
progress callbacks, log statements) are omitted; each embedding carries a
comment naming its source function.
-/

namespace MW

/-- Python str, modelled as a list of characters. -/
abbrev Str := List Char

/-- qbittorrent.py, function normalize of path: replace each backslash by a slash. -/
def normalize_path (s : Str) : Str :=
  s.map (fun c => if c = '\\' then '/' else c)

/-- Python s.rstrip of the slash character: drop all trailing slashes. -/
def rstripSlash (s : Str) : Str :=
  (s.reverse.dropWhile (fun c => c = '/')).reverse

/-- Auxiliary for splitSlash: acc holds the current field reversed. -/
def splitSlashAux : Str → Str → List Str
  | [], acc => [acc.reverse]
  | c :: rest, acc =>
    if c = '/' then acc.reverse :: splitSlashAux rest []
    else splitSlashAux rest (c :: acc)

/-- Python s.split on the slash character: always at least one field. -/
def splitSlash (s : Str) : List Str :=
  splitSlashAux s []

/-- Python the slash join of a list of fields. -/
def joinSlash (l : List Str) : Str :=
  List.intercalate ['/'] l

/-- Python s.lower, restricted to the ASCII range used by paths. -/
def lowerStr (s : Str) : Str :=
  s.map Char.toLower

/-- Python s.strip: drop whitespace on both ends. -/
def stripWs (s : Str) : Str :=
  ((s.dropWhile Char.isWhitespace).reverse.dropWhile Char.isWhitespace).reverse

/-- os.path.basename: the text after the last slash. -/
def osBasename (s : Str) : Str :=
  (splitSlash s).getLastD []

/-- os.path.join for two POSIX components, as used with a directory and a
relative file name. -/
def ospJoin (a b : Str) : Str :=
  if b.head? = some '/' then b
  else if a = [] then b
  else if a.getLast? = some '/' then a ++ b
  else a ++ '/' :: b

/-- pathlib Path slash operator for a non-absolute right operand, on a left
operand in canonical form (no trailing slash). -/
def pathJoin (a b : Str) : Str :=
  a ++ '/' :: b

/-- Python truthiness of an optional string: present and non-empty. -/
def strTruthy : Option Str → Bool
  | none => false
  | some s => decide (s ≠ [])

/-- models.py Library: the columns the reconciliation and matching engine
reads.  qb_root_path comes from migration 0005. -/
structure Library where
  id : Nat
  name : Str
  root_path : Str
  enable_filesystem : Bool
  enable_arr : Bool
  trash_retention_days : Int
  qb_url : Option Str
  qb_root_path : Option Str
deriving DecidableEq

/-- os.stat result: the two fields scan_library reads. -/
structure Stat where
  st_size : Nat
  st_mtime : Int
deriving DecidableEq

/-- models.py MediaItem: the columns the engine reads or writes.
torrent_leechers comes from migration 0005; modified_at is stored already
converted by datetime.utcfromtimestamp, an injective map, so it is kept as
the raw mtime integer. -/
structure MediaItem where
  id : Nat
  path : Str
  size_bytes : Nat
  modified_at : Option Int
  is_in_trash : Bool
  is_missing : Bool
  trashed_at : Option Int
  trashed_path : Option Str
  torrent_hash : Option Str
  torrent_ratio : Option ℚ
  torrent_seed_time : Option Int
  torrent_seeders : Option Int
  torrent_leechers : Option Int
deriving DecidableEq

/-- models.py TrashEntry: all columns except the surrogate id. -/
structure TrashEntry where
  library_id : Nat
  media_item_id : Nat
  original_path : Str
  trashed_path : Str
  trashed_at : Int
  purge_after : Int
deriving DecidableEq

/-- One entry of the per-torrent file listing returned by the torrents/files
endpoint: name and size. -/
structure RawFile where
  name : Str
  size : Option Int
deriving DecidableEq

/-- qbittorrent.py torrent dict, as consumed by the sync: the fields read by
build_torrent_index and sync_library_torrents.  files_fetch models the
outcome of the per-torrent files request; none stands for a request failure,
which build_torrent_index turns into an empty listing.  ratio is kept as a
rational: the code only converts and compares it for equality. -/
structure Torrent where
  hash : Option Str
  save_path : Option Str
  content_path : Option Str
  ratio : Option ℚ
  seeding_time : Option Int
  num_seeds : Option Int
  num_leechs : Option Int
  files_fetch : Option (List RawFile)
deriving DecidableEq

/-- qbittorrent.py torrent files helper combined with the surrounding
try/except of build_torrent_index: a failed listing yields no entries, and
entries with a falsy name are skipped. -/
def torrentFilesOf (t : Torrent) : List RawFile :=
  match t.files_fetch with
  | none => []
  | some entries => entries.filter (fun e => decide (e.name ≠ []))

/-- qbittorrent.py build of file paths: save_path joined with each name when
a non-empty listing and a save path exist, else content_path joined with
each name, else content_path alone. -/
def build_file_paths (t : Torrent) (files : List RawFile) : List (Str × Option Int) :=
  let save_path := normalize_path (t.save_path.getD [])
  let content_path := normalize_path (t.content_path.getD [])
  if files ≠ [] ∧ save_path ≠ [] then
    files.map (fun e => (ospJoin save_path e.name, e.size))
  else if content_path ≠ [] then
    if files ≠ [] then files.map (fun e => (ospJoin content_path e.name, e.size))
    else [(content_path, none)]
  else []

/-- qbittorrent.py heuristic segment search inside map of a qb path: find the
first path segment whose lowering equals the library root basename or the
library name, and return the remaining segments. -/
def findSegSuffix (lib_base lib_name : Str) : List Str → Option (List Str)
  | [] => none
  | p :: rest =>
    let lower := lowerStr p
    if lower ≠ [] ∧ (lower = lib_base ∨ (lib_name ≠ [] ∧ lower = lib_name)) then some rest
    else findSegSuffix lib_base lib_name rest

/-- qbittorrent.py map of a qb path into library space: strip a configured
qb root prefix and substitute the library root, else splice at a segment
matching the root basename or library name, else return the path unchanged. -/
def map_qb_path (lib : Library) (path : Str) : Str :=
  let normalized := normalize_path path
  let viaRoot : Option Str :=
    match lib.qb_root_path with
    | some qb_root =>
      if qb_root ≠ [] then
        let qb_root_norm := normalize_path (rstripSlash qb_root)
        if qb_root_norm.isPrefixOf normalized then
          some (normalize_path (rstripSlash lib.root_path ++ normalized.drop qb_root_norm.length))
        else none
      else none
    | none => none
  match viaRoot with
  | some r => r
  | none =>
    let lib_root := rstripSlash (normalize_path lib.root_path)
    let lib_base := lowerStr ((splitSlash lib_root).getLastD [])
    let lib_name := lowerStr (stripWs lib.name)
    match findSegSuffix lib_base lib_name (splitSlash normalized) with
    | some rest =>
      let suffix : Str := if rest ≠ [] then '/' :: joinSlash rest else []
      normalize_path (lib_root ++ suffix)
    | none => normalized

/-- Python dict get on an association list where assignment conses the new
binding in front: the first match is the latest write. -/
def dictGet (k : Str) (d : List (Str × α)) : Option α :=
  match d with
  | [] => none
  | (k', v) :: rest => if k' = k then some v else dictGet k rest

/-- Python dict setdefault with list append: extend the list bound to the
key, or bind the key to a singleton at the end. -/
def bAdd (k : Str) (v : β) : List (Str × List β) → List (Str × List β)
  | [] => [(k, [v])]
  | (k', vs) :: rest => if k' = k then (k', vs ++ [v]) :: rest else (k', vs) :: bAdd k v rest

/-- Python dict get with default empty list. -/
def bGet (k : Str) (d : List (Str × List β)) : List β :=
  (dictGet k d).getD []

/-- qbittorrent.py build_torrent_index, one torrent: skip torrents without a
hash, map every file path, write it into the exact-path index (later writes
win) and append (torrent, size) under the basename when non-empty.  The
sample path list, used only for logging, is omitted. -/
def indexTorrent (lib : Library) (acc : List (Str × Torrent) × List (Str × List (Torrent × Option Int)))
    (t : Torrent) : List (Str × Torrent) × List (Str × List (Torrent × Option Int)) :=
  if strTruthy t.hash then
    (build_file_paths t (torrentFilesOf t)).foldl
      (fun acc2 entry =>
        let mapped := map_qb_path lib entry.1
        let index2 := (mapped, t) :: acc2.1
        let base := osBasename mapped
        let bIndex2 := if base ≠ [] then bAdd base (t, entry.2) acc2.2 else acc2.2
        (index2, bIndex2))
      acc
  else acc

/-- qbittorrent.py build_torrent_index over the listed torrents. -/
def build_torrent_index (lib : Library) (torrents : List Torrent) :
    List (Str × Torrent) × List (Str × List (Torrent × Option Int)) :=
  torrents.foldl (indexTorrent lib) ([], [])

/-- sync_library_torrents lines 147 to 151: among two or more basename
candidates take the first whose size is truthy and differs from the stored
size by strictly less than 2 MiB. -/
def firstSizeMatch (stored : Nat) : List (Torrent × Option Int) → Option Torrent
  | [] => none
  | (cand, size) :: rest =>
    match size with
    | some s =>
      if s ≠ 0 ∧ (s - (stored : Int)).natAbs < 2 * 1024 * 1024 then some cand
      else firstSizeMatch stored rest
    | none => firstSizeMatch stored rest

/-- sync_library_torrents lines 144 to 151: the basename fallback stage.  A
unique candidate is taken directly; two or more candidates are disambiguated
by size only when the stored size is truthy. -/
def basenameFallback (bIndex : List (Str × List (Torrent × Option Int))) (item : MediaItem) :
    Option Torrent :=
  let candidates := bGet (osBasename item.path) bIndex
  match candidates with
  | [c] => some c.1
  | cs =>
    if 1 < cs.length ∧ item.size_bytes ≠ 0 then firstSizeMatch item.size_bytes cs
    else none

/-- The three per-depth suffix dictionaries of sync_library_torrents. -/
structure SuffixMaps where
  m3 : List (Str × List MediaItem)
  m2 : List (Str × List MediaItem)
  m1 : List (Str × List MediaItem)

/-- Select the dictionary for a depth. -/
def SuffixMaps.at (m : SuffixMaps) : Nat → List (Str × List MediaItem)
  | 3 => m.m3
  | 2 => m.m2
  | _ => m.m1

/-- sync_library_torrents lines 136 to 140: the lowered join of the last
depth many path components. -/
def suffixKey (parts : List Str) (depth : Nat) : Str :=
  lowerStr (joinSlash (parts.drop (parts.length - depth)))

/-- sync_library_torrents lines 135 to 140: insert one item into the suffix
dictionaries at every depth its path reaches. -/
def addSuffixes (m : SuffixMaps) (item : MediaItem) : SuffixMaps :=
  let parts := splitSlash (normalize_path item.path)
  { m3 := if 3 ≤ parts.length then bAdd (suffixKey parts 3) item m.m3 else m.m3
    m2 := if 2 ≤ parts.length then bAdd (suffixKey parts 2) item m.m2 else m.m2
    m1 := if 1 ≤ parts.length then bAdd (suffixKey parts 1) item m.m1 else m.m1 }

/-- sync_library_torrents lines 134 to 140: the suffix dictionaries, built
once from the full item list before the matching loop. -/
def buildSuffixMaps (items : List MediaItem) : SuffixMaps :=
  items.foldl addSuffixes ⟨[], [], []⟩

/-- sync_library_torrents lines 154 to 162, one depth: when the path has
enough components and the suffix key identifies exactly one item, look that
item up in the exact-path index; anything else contributes nothing. -/
def tryDepth (index : List (Str × Torrent)) (maps : SuffixMaps) (item : MediaItem) (depth : Nat) :
    Option Torrent :=
  let parts := splitSlash (normalize_path item.path)
  if parts.length < depth then none
  else
    match bGet (suffixKey parts depth) (maps.at depth) with
    | [m] => dictGet m.path index
    | _ => none

/-- sync_library_torrents lines 152 to 162: the suffix fallback, depths 3
then 2 then 1, keeping the first hit. -/
def suffixFallback (index : List (Str × Torrent)) (maps : SuffixMaps) (item : MediaItem) :
    Option Torrent :=
  match tryDepth index maps item 3 with
  | some t => some t
  | none =>
    match tryDepth index maps item 2 with
    | some t => some t
    | none => tryDepth index maps item 1

/-- sync_library_torrents lines 142 to 162: exact path, then basename, then
suffix.  A torrent dict from the index is always truthy, so the Python
falsiness tests coincide with the option being none. -/
def matchItem (index : List (Str × Torrent)) (bIndex : List (Str × List (Torrent × Option Int)))
    (maps : SuffixMaps) (item : MediaItem) : Option Torrent :=
  match dictGet item.path index with
  | some t => some t
  | none =>
    match basenameFallback bIndex item with
    | some t => some t
    | none => suffixFallback index maps item

/-- sync_library_torrents lines 164 to 184: copy the torrent fields onto a
matched item, each compared before writing, tracking whether anything
changed. -/
def applyTorrent (t : Torrent) (i0 : MediaItem) : MediaItem × Bool :=
  let p1 := if i0.torrent_hash ≠ t.hash then ({ i0 with torrent_hash := t.hash }, true)
            else (i0, false)
  let p2 := match t.ratio with
    | some r =>
      if p1.1.torrent_ratio ≠ some r then ({ p1.1 with torrent_ratio := some r }, true)
      else p1
    | none => p1
  let p3 := match t.seeding_time with
    | some v =>
      if p2.1.torrent_seed_time ≠ some v then ({ p2.1 with torrent_seed_time := some v }, true)
      else p2
    | none => p2
  let p4 := match t.num_seeds with
    | some v =>
      if p3.1.torrent_seeders ≠ some v then ({ p3.1 with torrent_seeders := some v }, true)
      else p3
    | none => p3
  match t.num_leechs with
  | some v =>
    if p4.1.torrent_leechers ≠ some v then ({ p4.1 with torrent_leechers := some v }, true)
    else p4
  | none => p4

/-- sync_library_torrents lines 185 to 200: clear each torrent field that is
currently non-null, tracking whether anything changed. -/
def clearTorrent (i0 : MediaItem) : MediaItem × Bool :=
  let p1 := if i0.torrent_hash ≠ none then ({ i0 with torrent_hash := none }, true)
            else (i0, false)
  let p2 := if p1.1.torrent_ratio ≠ none then ({ p1.1 with torrent_ratio := none }, true)
            else p1
  let p3 := if p2.1.torrent_seed_time ≠ none then ({ p2.1 with torrent_seed_time := none }, true)
            else p2
  let p4 := if p3.1.torrent_seeders ≠ none then ({ p3.1 with torrent_seeders := none }, true)
            else p3
  if p4.1.torrent_leechers ≠ none then ({ p4.1 with torrent_leechers := none }, true)
  else p4

/-- One iteration of the matching loop of sync_library_torrents: match, then
apply or clear. -/
def syncItem (index : List (Str × Torrent)) (bIndex : List (Str × List (Torrent × Option Int)))
    (maps : SuffixMaps) (i : MediaItem) : MediaItem × Bool :=
  match matchItem index bIndex maps i with
  | some t => applyTorrent t i
  | none => clearTorrent i

/-- qbittorrent.py sync_library_torrents: no-op without torrent integration
and a client url, else build the indexes, build the suffix maps once, run
the matching loop over every item of the library, and return the new rows
together with the number of rows some field of which changed. -/
def sync_library_torrents (lib : Library) (torrents : List Torrent) (items : List MediaItem) :
    List MediaItem × Nat :=
  if ¬ (lib.enable_arr = true ∧ strTruthy lib.qb_url = true) then (items, 0)
  else
    let built := build_torrent_index lib torrents
    let maps := buildSuffixMaps items
    let results := items.map (syncItem built.1 built.2 maps)
    (results.map Prod.fst, (results.filter Prod.snd).length)

/-- The five torrent attribution fields of a MediaItem as one tuple. -/
def torrentFields (i : MediaItem) :
    Option Str × Option ℚ × Option Int × Option Int × Option Int :=
  (i.torrent_hash, i.torrent_ratio, i.torrent_seed_time, i.torrent_seeders, i.torrent_leechers)

/-- A torrent and size pair qualifies for the spec size rule exactly when a
size is reported and it lies strictly within 2 MiB of the stored size; the
code additionally requires the reported size to be truthy. -/
def sizeQualifies (stored : Nat) : Option Int → Bool
  | some s => decide (s ≠ 0) && decide ((s - (stored : Int)).natAbs < 2 * 1024 * 1024)
  | none => false

/-- The amended basename rule, stated from the spec words as corrected: a
unique candidate directly; among two or more candidates, when the stored
size is nonzero, the first candidate whose reported size is truthy and
strictly within 2 MiB of the stored size; otherwise none. -/
def specBasenamePick (stored : Nat) (cands : List (Torrent × Option Int)) : Option Torrent :=
  match cands with
  | [c] => some c.1
  | _ =>
    if 2 ≤ cands.length ∧ stored ≠ 0 then
      (cands.find? (fun c => sizeQualifies stored c.2)).map Prod.fst
    else none

theorem firstSizeMatch_eq_find (stored : Nat) (cands : List (Torrent × Option Int)) :
    firstSizeMatch stored cands = (cands.find? (fun c => sizeQualifies stored c.2)).map Prod.fst := by
  induction cands with
  | nil => rfl
  | cons c rest ih =>
    obtain ⟨cand, size⟩ := c
    cases size with
    | none => simpa [firstSizeMatch, sizeQualifies, List.find?] using ih
    | some s =>
      by_cases h : s ≠ 0 ∧ (s - (stored : Int)).natAbs < 2 * 1024 * 1024
      · simp [firstSizeMatch, sizeQualifies, List.find?, h.1, h.2]
      · push_neg at h
        by_cases hs : s = 0
        · simpa [firstSizeMatch, sizeQualifies, List.find?, hs] using ih
        · have hlt := h hs
          have : ¬ (s - (stored : Int)).natAbs < 2 * 1024 * 1024 := by omega
          simpa [firstSizeMatch, sizeQualifies, List.find?, hs, this] using ih

/-- An empty torrent record used to build small concrete inputs. -/
def emptyTorrent : Torrent :=
  { hash := none, save_path := none, content_path := none, ratio := none,
    seeding_time := none, num_seeds := none, num_leechs := none, files_fetch := none }

/-- A plain media item used to build small concrete inputs. -/
def plainItem : MediaItem :=
  { id := 0, path := [], size_bytes := 0, modified_at := none,
    is_in_trash := false, is_missing := false, trashed_at := none, trashed_path := none,
    torrent_hash := none, torrent_ratio := none, torrent_seed_time := none,
    torrent_seeders := none, torrent_leechers := none }

/-- C3 counterexample input: two torrents sharing the basename of the item. -/
def c3TorA : Torrent := { emptyTorrent with hash := some ("A".data) }

/-- Second basename candidate for the C3 counterexample. -/
def c3TorB : Torrent := { emptyTorrent with hash := some ("B".data) }

/-- C3 counterexample basename index: two candidates under a.mkv, the first
of reported size 1000, the second far larger. -/
def c3BIndex : List (Str × List (Torrent × Option Int)) :=
  [("a.mkv".data, [(c3TorA, some 1000), (c3TorB, some (5 * 1024 * 1024))])]

/-- C3 counterexample item: stored size zero, no exact-path index hit. -/
def c3Item : MediaItem := { plainItem with path := "/x/a.mkv".data, size_bytes := 0 }

/-- C3 counterexample: the item has no exact-path hit, two indexed files
share its basename, and the first candidate's reported size 1000 lies within
2 MiB of the stored size 0, yet the basename stage matches nothing and the
whole cascade matches nothing, because the stored size is falsy and the
disambiguation loop is skipped.  This falsifies the claim as stated. -/
theorem c3_counterexample :
    dictGet c3Item.path ([] : List (Str × Torrent)) = none
    ∧ bGet (osBasename c3Item.path) c3BIndex = [(c3TorA, some 1000), (c3TorB, some (5 * 1024 * 1024))]
    ∧ ((1000 : Int) - (c3Item.size_bytes : Int)).natAbs < 2 * 1024 * 1024
    ∧ basenameFallback c3BIndex c3Item = none
    ∧ matchItem [] c3BIndex (buildSuffixMaps [c3Item]) c3Item = none := by
  decide

/-- C3 amended: with no exact-path index hit, a unique basename candidate is
matched directly; two or more candidates are disambiguated only when the
stored size is nonzero, taking the first candidate whose reported size is
truthy and strictly within 2 MiB of the stored size; otherwise the basename
stage matches nothing; and a basename-stage hit is the sync match. -/
theorem c3_basename_fallback_amended (index : List (Str × Torrent))
    (bIndex : List (Str × List (Torrent × Option Int))) (maps : SuffixMaps) (item : MediaItem)
    (hexact : dictGet item.path index = none) :
    basenameFallback bIndex item = specBasenamePick item.size_bytes (bGet (osBasename item.path) bIndex)
    ∧ (∀ t, basenameFallback bIndex item = some t → matchItem index bIndex maps item = some t) := by
  constructor
  · show basenameFallback bIndex item = specBasenamePick _ _
    unfold basenameFallback specBasenamePick
    cases h : bGet (osBasename item.path) bIndex with
    | nil => simp
    | cons c rest =>
      cases rest with
      | nil => simp
      | cons c2 rest2 =>
        by_cases hsz : item.size_bytes ≠ 0
        · have h2 : 1 < (c :: c2 :: rest2).length := by simp
          have h2b : 2 ≤ (c :: c2 :: rest2).length := by simp
          simp only [if_pos (And.intro h2 hsz), if_pos (And.intro h2b hsz)]
          exact firstSizeMatch_eq_find _ _
        · simp [hsz]
  · intro t hb
    unfold matchItem
    rw [hexact, hb]

/-- C3 witness: the amended theorem applied at a concrete index and item,
with the exact-path miss discharged by evaluation. -/
theorem c3_basename_fallback_amended_witness :
    basenameFallback c3BIndex c3Item
      = specBasenamePick c3Item.size_bytes (bGet (osBasename c3Item.path) c3BIndex) :=
  (c3_basename_fallback_amended [] c3BIndex (buildSuffixMaps [c3Item]) c3Item (by decide)).1

/-- C9 library: root path /lib, qb root path /data, torrent sync enabled. -/
def c9Lib : Library :=
  { id := 1, name := "Lib".data, root_path := "/lib".data,
    enable_filesystem := true, enable_arr := true, trash_retention_days := 30,
    qb_url := some ("http://qb".data), qb_root_path := some ("/data".data) }

/-- C9 torrent: hash H1, save path /data/show, one listed file e1.mkv of
size 1000. -/
def c9Tor : Torrent :=
  { emptyTorrent with
    hash := some ("H1".data), save_path := some ("/data/show".data),
    files_fetch := some [{ name := "e1.mkv".data, size := some 1000 }] }

/-- C9 media item stored at the mapped path. -/
def c9Item : MediaItem := { plainItem with id := 7, path := "/lib/show/e1.mkv".data, size_bytes := 1000 }

/-- C9: the index builder maps the single listed file to exactly
/lib/show/e1.mkv, the qb root prefix replaced by the library root, and a
sync pass over an item stored at that path writes torrent hash H1 onto it. -/
theorem c9_scenario_mapping_and_hash :
    map_qb_path c9Lib (ospJoin ("/data/show".data) ("e1.mkv".data)) = "/lib/show/e1.mkv".data
    ∧ dictGet ("/lib/show/e1.mkv".data) (build_torrent_index c9Lib [c9Tor]).1 = some c9Tor
    ∧ (build_torrent_index c9Lib [c9Tor]).1 = [("/lib/show/e1.mkv".data, c9Tor)]
    ∧ (sync_library_torrents c9Lib [c9Tor] [c9Item]).1.map MediaItem.torrent_hash
        = [some ("H1".data)] := by
  decide

/-- An item bears a suffix key at a depth when its normalized path has at
least that many components and their lowered join is the key. -/
def bearsSuffix (depth : Nat) (key : Str) (i : MediaItem) : Bool :=
  let ps := splitSlash (normalize_path i.path)
  decide (depth ≤ ps.length) && decide (suffixKey ps depth = key)

theorem dictGet_bAdd (k k2 : Str) (v : β) (d : List (Str × List β)) :
    dictGet k (bAdd k2 v d)
      = if k2 = k then some ((dictGet k d).getD [] ++ [v]) else dictGet k d := by
  induction d with
  | nil => by_cases h : k2 = k <;> simp [bAdd, dictGet, h]
  | cons e rest ih =>
    obtain ⟨k1, vs⟩ := e
    by_cases h1 : k1 = k2
    · subst h1
      by_cases h2 : k1 = k <;> simp [bAdd, dictGet, h2, ih]
    · by_cases h2 : k1 = k <;> by_cases h3 : k2 = k <;>
        simp_all [bAdd, dictGet, ih]

theorem bGet_bAdd (k k2 : Str) (v : β) (d : List (Str × List β)) :
    bGet k (bAdd k2 v d) = if k2 = k then bGet k d ++ [v] else bGet k d := by
  by_cases h : k2 = k <;> simp [bGet, dictGet_bAdd, h]

theorem bGet_addSuffixes_m3 (m : SuffixMaps) (i : MediaItem) (k : Str) :
    bGet k (addSuffixes m i).m3 = bGet k m.m3 ++ (if bearsSuffix 3 k i then [i] else []) := by
  unfold addSuffixes bearsSuffix
  by_cases hlen : 3 ≤ (splitSlash (normalize_path i.path)).length
  · by_cases hk : suffixKey (splitSlash (normalize_path i.path)) 3 = k <;>
      simp [hlen, hk, bGet_bAdd]
  · simp [hlen]

theorem bGet_addSuffixes_m2 (m : SuffixMaps) (i : MediaItem) (k : Str) :
    bGet k (addSuffixes m i).m2 = bGet k m.m2 ++ (if bearsSuffix 2 k i then [i] else []) := by
  unfold addSuffixes bearsSuffix
  by_cases hlen : 2 ≤ (splitSlash (normalize_path i.path)).length
  · by_cases hk : suffixKey (splitSlash (normalize_path i.path)) 2 = k <;>
      simp [hlen, hk, bGet_bAdd]
  · simp [hlen]

theorem bGet_addSuffixes_m1 (m : SuffixMaps) (i : MediaItem) (k : Str) :
    bGet k (addSuffixes m i).m1 = bGet k m.m1 ++ (if bearsSuffix 1 k i then [i] else []) := by
  unfold addSuffixes bearsSuffix
  by_cases hlen : 1 ≤ (splitSlash (normalize_path i.path)).length
  · by_cases hk : suffixKey (splitSlash (normalize_path i.path)) 1 = k <;>
      simp [hlen, hk, bGet_bAdd]
  · simp [hlen]

theorem bGet_foldl_addSuffixes (items : List MediaItem) (m : SuffixMaps) (k : Str) :
    (bGet k (items.foldl addSuffixes m).m3 = bGet k m.m3 ++ items.filter (bearsSuffix 3 k))
    ∧ (bGet k (items.foldl addSuffixes m).m2 = bGet k m.m2 ++ items.filter (bearsSuffix 2 k))
    ∧ (bGet k (items.foldl addSuffixes m).m1 = bGet k m.m1 ++ items.filter (bearsSuffix 1 k)) := by
  induction items generalizing m with
  | nil => simp
  | cons i rest ih =>
    obtain ⟨ih3, ih2, ih1⟩ := ih (addSuffixes m i)
    refine ⟨?_, ?_, ?_⟩ <;>
      simp only [List.foldl_cons, ih3, ih2, ih1, bGet_addSuffixes_m3, bGet_addSuffixes_m2,
        bGet_addSuffixes_m1, List.filter_cons]
    · by_cases hb : bearsSuffix 3 k i = true <;> simp [hb]
    · by_cases hb : bearsSuffix 2 k i = true <;> simp [hb]
    · by_cases hb : bearsSuffix 1 k i = true <;> simp [hb]

theorem bGet_buildSuffixMaps (items : List MediaItem) (k : Str) (d : Nat)
    (hd : d = 3 ∨ d = 2 ∨ d = 1) :
    bGet k ((buildSuffixMaps items).at d) = items.filter (bearsSuffix d k) := by
  have h := bGet_foldl_addSuffixes items ⟨[], [], []⟩ k
  rcases hd with h3 | h2 | h1
  · subst h3
    simpa [bGet, dictGet, buildSuffixMaps, SuffixMaps.at] using h.1
  · subst h2
    simpa [bGet, dictGet, buildSuffixMaps, SuffixMaps.at] using h.2.1
  · subst h1
    simpa [bGet, dictGet, buildSuffixMaps, SuffixMaps.at] using h.2.2

theorem tryDepth_some (index : List (Str × Torrent)) (items : List MediaItem) (item : MediaItem)
    (d : Nat) (hd : d = 3 ∨ d = 2 ∨ d = 1) (t : Torrent)
    (h : tryDepth index (buildSuffixMaps items) item d = some t) :
    d ≤ (splitSlash (normalize_path item.path)).length
    ∧ ∃ m, items.filter
        (bearsSuffix d (suffixKey (splitSlash (normalize_path item.path)) d)) = [m]
      ∧ dictGet m.path index = some t := by
  simp only [tryDepth] at h
  rw [bGet_buildSuffixMaps items _ d hd] at h
  by_cases hlen : (splitSlash (normalize_path item.path)).length < d
  · simp [hlen] at h
  · rw [if_neg hlen] at h
    refine ⟨by omega, ?_⟩
    cases hf : items.filter
        (bearsSuffix d (suffixKey (splitSlash (normalize_path item.path)) d)) with
    | nil => rw [hf] at h; exact absurd h (by simp)
    | cons m rest =>
      cases rest with
      | nil => exact ⟨m, rfl, by rw [hf] at h; exact h⟩
      | cons m2 rest2 => rw [hf] at h; exact absurd h (by simp)

theorem tryDepth_ambiguous (index : List (Str × Torrent)) (items : List MediaItem)
    (item : MediaItem) (d : Nat) (hd : d = 3 ∨ d = 2 ∨ d = 1)
    (h2 : 2 ≤ (items.filter
        (bearsSuffix d (suffixKey (splitSlash (normalize_path item.path)) d))).length) :
    tryDepth index (buildSuffixMaps items) item d = none := by
  simp only [tryDepth]
  rw [bGet_buildSuffixMaps items _ d hd]
  by_cases hlen : (splitSlash (normalize_path item.path)).length < d
  · simp [hlen]
  · rw [if_neg hlen]
    cases hf : items.filter
        (bearsSuffix d (suffixKey (splitSlash (normalize_path item.path)) d)) with
    | nil => rfl
    | cons m rest =>
      cases rest with
      | nil => rw [hf] at h2; simp at h2
      | cons m2 rest2 => rfl

/-- C4: against the suffix maps built once from the full item list of the
library, a suffix-fallback hit arises only at some depth 3, 2 or 1 at which
exactly one library item bears the suffix of the item, and the torrent is
the exact-path index entry of that unique bearer; a suffix borne by two or
more items contributes nothing at its depth; depth 3 takes priority over
depth 2 over depth 1; and the sync pass computes every item of the pass
against the same maps built from the full item list. -/
theorem c4_suffix_maps_unique_bearer (index : List (Str × Torrent)) (items : List MediaItem)
    (item : MediaItem) :
    (∀ t, suffixFallback index (buildSuffixMaps items) item = some t →
      ∃ d, (d = 3 ∨ d = 2 ∨ d = 1)
        ∧ d ≤ (splitSlash (normalize_path item.path)).length
        ∧ ∃ m, items.filter
            (bearsSuffix d (suffixKey (splitSlash (normalize_path item.path)) d)) = [m]
          ∧ dictGet m.path index = some t)
    ∧ (∀ d, (d = 3 ∨ d = 2 ∨ d = 1) →
        2 ≤ (items.filter
          (bearsSuffix d (suffixKey (splitSlash (normalize_path item.path)) d))).length →
        tryDepth index (buildSuffixMaps items) item d = none)
    ∧ (∀ t, tryDepth index (buildSuffixMaps items) item 3 = some t →
        suffixFallback index (buildSuffixMaps items) item = some t)
    ∧ (∀ t, tryDepth index (buildSuffixMaps items) item 3 = none →
        tryDepth index (buildSuffixMaps items) item 2 = some t →
        suffixFallback index (buildSuffixMaps items) item = some t)
    ∧ (∀ lib torrents, lib.enable_arr = true → strTruthy lib.qb_url = true →
        sync_library_torrents lib torrents items
          = (items.map (fun i => (syncItem (build_torrent_index lib torrents).1
                (build_torrent_index lib torrents).2 (buildSuffixMaps items) i).1),
             ((items.map (syncItem (build_torrent_index lib torrents).1
                (build_torrent_index lib torrents).2 (buildSuffixMaps items))).filter
                Prod.snd).length)) := by
  refine ⟨?_, ?_, ?_, ?_, ?_⟩
  · intro t h
    unfold suffixFallback at h
    cases h3 : tryDepth index (buildSuffixMaps items) item 3 with
    | some t3 =>
      rw [h3] at h
      obtain ⟨hlen, m, hm⟩ := tryDepth_some index items item 3 (Or.inl rfl) t3 h3
      exact ⟨3, Or.inl rfl, hlen, m, hm.1, by rw [hm.2]; exact h⟩
    | none =>
      rw [h3] at h
      cases h2 : tryDepth index (buildSuffixMaps items) item 2 with
      | some t2 =>
        rw [h2] at h
        obtain ⟨hlen, m, hm⟩ := tryDepth_some index items item 2 (Or.inr (Or.inl rfl)) t2 h2
        exact ⟨2, Or.inr (Or.inl rfl), hlen, m, hm.1, by rw [hm.2]; exact h⟩
      | none =>
        rw [h2] at h
        obtain ⟨hlen, m, hm⟩ := tryDepth_some index items item 1 (Or.inr (Or.inr rfl)) t h
        exact ⟨1, Or.inr (Or.inr rfl), hlen, m, hm.1, hm.2⟩
  · intro d hd h2
    exact tryDepth_ambiguous index items item d hd h2
  · intro t h3
    unfold suffixFallback
    rw [h3]
  · intro t h3 h2
    unfold suffixFallback
    rw [h3, h2]
  · intro lib torrents h1 h2
    simp [sync_library_torrents, h1, h2, List.map_map, Function.comp]

/-- C4 witness items: two items sharing every suffix of their one-component
paths. -/
def c4ItemA : MediaItem := { plainItem with id := 1, path := "a.mkv".data }

/-- Second C4 witness item with the same path. -/
def c4ItemB : MediaItem := { plainItem with id := 2, path := "a.mkv".data }

/-- C4 witness: the ambiguity part of the theorem applied at a concrete pair
of items sharing a suffix, and the priority part at a depth-3 miss. -/
theorem c4_suffix_maps_unique_bearer_witness :
    tryDepth [] (buildSuffixMaps [c4ItemA, c4ItemB]) c4ItemA 1 = none := by
  have h := (c4_suffix_maps_unique_bearer [] [c4ItemA, c4ItemB] c4ItemA).2.1
  exact h 1 (Or.inr (Or.inr rfl)) (by decide)

/-- filesystem.py VIDEO_EXTENSIONS. -/
def VIDEO_EXTENSIONS : List Str :=
  [".mkv".data, ".mp4".data, ".avi".data, ".mov".data, ".m4v".data, ".wmv".data,
   ".flv".data, ".ts".data]

/-- The characters from the last dot of a name onwards, if any. -/
def lastDotTail : Str → Option Str
  | [] => none
  | c :: rest =>
    match lastDotTail rest with
    | some t => some t
    | none => if c = '.' then some (c :: rest) else none

/-- pathlib Path.suffix of a final path component: the part from the last
dot on, provided that dot is neither the first nor the last character. -/
def pathSuffix (name : Str) : Str :=
  match lastDotTail name with
  | none => []
  | some t => if t.length < name.length ∧ 2 ≤ t.length then t else []

/-- A file path lies strictly under a root directory when the root
components properly prefix its components. -/
def underRoot (root p : Str) : Bool :=
  (splitSlash root).isPrefixOf (splitSlash p) && decide (splitSlash root ≠ splitSlash p)

/-- filesystem.py iter files: os.walk over the whole subtree of the root
with no directory excluded, keeping files whose lowered suffix is a video
extension.  The disk is modelled as the list of file paths with their stat
data in walk order. -/
def iter_files (root : Str) (fs : List (Str × Stat)) : List Str :=
  (fs.filter (fun e =>
    underRoot root e.1 && VIDEO_EXTENSIONS.contains (lowerStr (pathSuffix (osBasename e.1))))).map
    Prod.fst

/-- Path.stat during the scan: a path in the vanished set raises
FileNotFoundError, modelled as none; otherwise the stat recorded on disk. -/
def statOf (fs : List (Str × Stat)) (vanished : List Str) (p : Str) : Option Stat :=
  if vanished.contains p then none else dictGet p fs

/-- The mutable state of the scan loop of scan_library: the item rows, the
seen set in insertion order, and the running counters. -/
structure ScanState where
  items : List MediaItem
  seen : List Str
  scanned : Nat
  created : Nat
  updated : Nat

/-- Python set.add on a list kept in insertion order. -/
def seenInsert (s : List Str) (p : Str) : List Str :=
  if s.contains p then s else s ++ [p]

/-- scan_library lines 90 to 103: compare size, modified time and the
missing flag against the stat result, updating each and tracking whether
anything changed.  The scan timestamp refresh carries no claim and is
omitted. -/
def refreshItem (s : Stat) (i0 : MediaItem) : MediaItem × Bool :=
  let p1 := if i0.size_bytes ≠ s.st_size then ({ i0 with size_bytes := s.st_size }, true)
            else (i0, false)
  let p2 := if p1.1.modified_at ≠ some s.st_mtime then
              ({ p1.1 with modified_at := some s.st_mtime }, true)
            else p1
  if p2.1.is_missing = true then ({ p2.1 with is_missing := false }, true) else p2

/-- The dict of existing rows maps a path to the last row bearing it; this
mirrors mutating that row object in place: refresh the last list element
with the given path. -/
def updateLastWith (p : Str) (s : Stat) : List MediaItem → List MediaItem × Bool
  | [] => ([], false)
  | i :: rest =>
    if rest.any (fun j => decide (j.path = p)) then
      let r := updateLastWith p s rest
      (i :: r.1, r.2)
    else if i.path = p then
      let r := refreshItem s i
      (r.1 :: rest, r.2)
    else
      let r := updateLastWith p s rest
      (i :: r.1, r.2)

/-- scan_library lines 76 to 87: the row created for a newly seen file.  The
primary key is assigned by the store and never read by the engine, so it is
modelled as zero; the name, resolution and scan timestamp carry no claim. -/
def newItem (p : Str) (s : Stat) : MediaItem :=
  { id := 0, path := p, size_bytes := s.st_size, modified_at := some s.st_mtime,
    is_in_trash := false, is_missing := false, trashed_at := none, trashed_path := none,
    torrent_hash := none, torrent_ratio := none, torrent_seed_time := none,
    torrent_seeders := none, torrent_leechers := none }

/-- scan_library lines 67 to 103, one walked path: record it as seen and
scanned before the stat; a failed stat skips the rest; a path outside the
dict of rows loaded at entry creates a row, one inside it refreshes the row
the dict maps it to. -/
def scanStep (origPaths : List Str) (stat : Str → Option Stat) (st : ScanState) (p : Str) :
    ScanState :=
  let st1 := { st with seen := seenInsert st.seen p, scanned := st.scanned + 1 }
  match stat p with
  | none => st1
  | some s =>
    if origPaths.contains p then
      let r := updateLastWith p s st1.items
      { st1 with items := r.1, updated := st1.updated + (if r.2 then 1 else 0) }
    else
      { st1 with items := st1.items ++ [newItem p s], created := st1.created + 1 }

/-- scan_library lines 116 to 121: walk the dict of rows loaded at entry,
that is every unshadowed row whose path was a key, and flag as missing each
one whose path was not seen and which is neither trashed nor already
missing, counting the flips. -/
def markMissing (origPaths seen : List Str) : List MediaItem → List MediaItem × Nat
  | [] => ([], 0)
  | i :: rest =>
    let r := markMissing origPaths seen rest
    if rest.any (fun j => decide (j.path = i.path)) then (i :: r.1, r.2)
    else if origPaths.contains i.path = true ∧ seen.contains i.path = false
        ∧ i.is_in_trash = false ∧ i.is_missing = false then
      ({ i with is_missing := true } :: r.1, r.2 + 1)
    else (i :: r.1, r.2)

/-- The summary dict scan_library returns. -/
structure ScanResult where
  scanned : Nat
  updated : Nat
  created : Nat
  missing : Nat
deriving DecidableEq

/-- filesystem.py scan_library: all-zero no-op when filesystem scanning is
disabled, else walk, create or refresh per path, then flag missing rows,
returning the new rows and the summary with scanned equal to the size of
the seen set. -/
def scan_library (lib : Library) (fs : List (Str × Stat)) (vanished : List Str)
    (items0 : List MediaItem) : List MediaItem × ScanResult :=
  if lib.enable_filesystem = false then (items0, ⟨0, 0, 0, 0⟩)
  else
    let origPaths := items0.map MediaItem.path
    let walked := iter_files lib.root_path fs
    let f := walked.foldl (scanStep origPaths (statOf fs vanished)) ⟨items0, [], 0, 0, 0⟩
    let r := markMissing origPaths f.seen f.items
    (r.1, { scanned := f.seen.length, updated := f.updated, created := f.created, missing := r.2 })

/-- C1 library: root /lib with filesystem scanning enabled. -/
def c1Lib : Library :=
  { id := 1, name := "Lib".data, root_path := "/lib".data,
    enable_filesystem := true, enable_arr := false, trash_retention_days := 30,
    qb_url := none, qb_root_path := none }

/-- C1 disk: a single video file inside the trash subtree of the root. -/
def c1Fs : List (Str × Stat) := [("/lib/.trash/a.mkv".data, ⟨5, 7⟩)]

/-- C1: the walk does not exclude the trash subtree.  On a library whose
only file lies under .trash, the reconciliation scan enumerates that path,
counts it as scanned, and creates a MediaItem for it, contradicting the
stated caller contract that the reconciler constrains the walk to exclude
.trash. -/
theorem c1_trash_subtree_is_scanned :
    iter_files c1Lib.root_path c1Fs = ["/lib/.trash/a.mkv".data]
    ∧ (".trash".data) ∈ splitSlash ("/lib/.trash/a.mkv".data)
    ∧ (scan_library c1Lib c1Fs [] []).2 = ⟨1, 0, 1, 0⟩
    ∧ (scan_library c1Lib c1Fs [] []).1.map MediaItem.path = ["/lib/.trash/a.mkv".data] := by
  decide

/-- The row the dict of existing rows maps a path to: the last row of the
list bearing that path, if any. -/
def repOf (p : Str) : List MediaItem → Option MediaItem
  | [] => none
  | i :: rest =>
    match repOf p rest with
    | some r => some r
    | none => if i.path = p then some i else none

theorem repOf_isSome_iff (p : Str) (items : List MediaItem) :
    (repOf p items).isSome = true ↔ p ∈ items.map MediaItem.path := by
  induction items with
  | nil => simp [repOf]
  | cons i rest ih =>
    simp only [repOf, List.map_cons, List.mem_cons]
    cases h : repOf p rest with
    | some r =>
      have hin : p ∈ rest.map MediaItem.path := ih.mp (by rw [h]; rfl)
      simp [hin]
    | none =>
      have hnotin : ¬ p ∈ rest.map MediaItem.path := by
        intro hc
        have := ih.mpr hc
        rw [h] at this
        simp at this
      by_cases hp : i.path = p
      · simp [hp]
      · rw [if_neg hp]
        constructor
        · intro hc
          simp at hc
        · intro hc
          rcases hc with hc | hc
          · exact (hp hc.symm).elim
          · exact (hnotin hc).elim

theorem any_path_eq (p : Str) (items : List MediaItem) :
    (items.any fun j => decide (j.path = p)) = (repOf p items).isSome := by
  induction items with
  | nil => simp [repOf]
  | cons i rest ih =>
    simp only [List.any_cons, ih, repOf]
    cases h : repOf p rest with
    | some r => simp
    | none => by_cases hp : i.path = p <;> simp [hp]

theorem refreshItem_one (s : Stat) (i : MediaItem) :
    (refreshItem s i).1
      = { i with size_bytes := s.st_size, modified_at := some s.st_mtime, is_missing := false } := by
  unfold refreshItem
  by_cases h1 : i.size_bytes = s.st_size <;>
    by_cases h2 : i.modified_at = some s.st_mtime <;>
      by_cases h3 : i.is_missing = true <;>
        simp_all <;>
        · first
          | rfl
          | (cases i; simp_all)

theorem refreshItem_noop (s : Stat) (i : MediaItem) (h1 : i.size_bytes = s.st_size)
    (h2 : i.modified_at = some s.st_mtime) (h3 : i.is_missing = false) :
    refreshItem s i = (i, false) := by
  unfold refreshItem
  simp [h1, h2, h3]

theorem refreshItem_flags (s : Stat) (i : MediaItem) :
    (refreshItem s i).1.path = i.path ∧ (refreshItem s i).1.size_bytes = s.st_size
    ∧ (refreshItem s i).1.modified_at = some s.st_mtime
    ∧ (refreshItem s i).1.is_missing = false
    ∧ (refreshItem s i).1.is_in_trash = i.is_in_trash := by
  rw [refreshItem_one]
  exact ⟨rfl, rfl, rfl, rfl, rfl⟩

theorem updateLast_map_path (p : Str) (s : Stat) (items : List MediaItem) :
    (updateLastWith p s items).1.map MediaItem.path = items.map MediaItem.path := by
  induction items with
  | nil => rfl
  | cons i rest ih =>
    unfold updateLastWith
    by_cases ha : (rest.any fun j => decide (j.path = p)) = true
    · simp [ha, ih]
    · by_cases hp : i.path = p
      · simp [ha, hp, (refreshItem_flags s i).1]
      · simp [ha, hp, ih]

theorem updateLast_none (p : Str) (s : Stat) (items : List MediaItem)
    (h : repOf p items = none) : updateLastWith p s items = (items, false) := by
  induction items with
  | nil => rfl
  | cons i rest ih =>
    have hrest : repOf p rest = none := by
      unfold repOf at h
      cases hr : repOf p rest with
      | some r => rw [hr] at h; simp at h
      | none => rfl
    have hp : ¬ i.path = p := by
      unfold repOf at h
      rw [hrest] at h
      intro hc
      rw [if_pos hc] at h
      simp at h
    have ha : (rest.any fun j => decide (j.path = p)) = false := by
      rw [any_path_eq, hrest]; rfl
    unfold updateLastWith
    simp [ha, hp, ih hrest]

theorem updateLast_rep (p : Str) (s : Stat) (items : List MediaItem) (i : MediaItem)
    (h : repOf p items = some i) :
    repOf p (updateLastWith p s items).1 = some (refreshItem s i).1
    ∧ (updateLastWith p s items).2 = (refreshItem s i).2 := by
  induction items with
  | nil => simp [repOf] at h
  | cons j rest ih =>
    cases hr : repOf p rest with
    | some r =>
      have hi : r = i := by
        unfold repOf at h; rw [hr] at h; simpa using h
      subst hi
      have ha : (rest.any fun j => decide (j.path = p)) = true := by
        rw [any_path_eq, hr]; rfl
      obtain ⟨ih1, ih2⟩ := ih hr
      unfold updateLastWith
      simp only [ha, if_pos]
      constructor
      · unfold repOf
        rw [ih1]
      · exact ih2
    | none =>
      have hp : j.path = p := by
        unfold repOf at h; rw [hr] at h
        by_cases hc : j.path = p
        · exact hc
        · rw [if_neg hc] at h; simp at h
      have hi : j = i := by
        unfold repOf at h; rw [hr, if_pos hp] at h; simpa using h
      subst hi
      have ha : (rest.any fun j => decide (j.path = p)) = false := by
        rw [any_path_eq, hr]; rfl
      unfold updateLastWith
      simp only [ha, Bool.false_eq_true, if_false, hp, if_pos]
      constructor
      · unfold repOf
        rw [hr, if_pos]
        rw [(refreshItem_flags s j).1, hp]
      · trivial

theorem updateLast_other (p : Str) (s : Stat) (q : Str) (items : List MediaItem) (hq : q ≠ p) :
    repOf q (updateLastWith p s items).1 = repOf q items := by
  induction items with
  | nil => rfl
  | cons i rest ih =>
    unfold updateLastWith
    by_cases ha : (rest.any fun j => decide (j.path = p)) = true
    · simp only [ha, if_pos]
      unfold repOf
      rw [ih]
    · by_cases hp : i.path = p
      · simp only [ha, Bool.false_eq_true, if_false, hp, if_pos]
        unfold repOf
        have h1 : ¬ (refreshItem s i).1.path = q := by
          rw [(refreshItem_flags s i).1, hp]; exact fun hc => hq hc.symm
        have h2 : ¬ i.path = q := by rw [hp]; exact fun hc => hq hc.symm
        simp [h1, h2]
      · simp only [ha, Bool.false_eq_true, if_false, hp, if_false]
        unfold repOf
        rw [ih]

theorem updateLast_filter (p : Str) (s : Stat) (q : Str) (items : List MediaItem) (hq : q ≠ p) :
    (updateLastWith p s items).1.filter (fun j => decide (j.path = q))
      = items.filter (fun j => decide (j.path = q)) := by
  induction items with
  | nil => rfl
  | cons i rest ih =>
    unfold updateLastWith
    by_cases ha : (rest.any fun j => decide (j.path = p)) = true
    · simp [ha, List.filter_cons, ih]
    · by_cases hp : i.path = p
      · have h1 : ¬ (refreshItem s i).1.path = q := by
          rw [(refreshItem_flags s i).1, hp]; exact fun hc => hq hc.symm
        have h2 : ¬ i.path = q := by rw [hp]; exact fun hc => hq hc.symm
        have h3 : ¬ p = q := fun hc => hq hc.symm
        simp [ha, hp, List.filter_cons, h1, h2, h3]
      · simp [ha, hp, List.filter_cons, ih]

theorem updateLast_mem (p : Str) (s : Stat) (items : List MediaItem) (j : MediaItem)
    (h : j ∈ (updateLastWith p s items).1) :
    j ∈ items ∨ ∃ i, i ∈ items ∧ j = (refreshItem s i).1 := by
  induction items with
  | nil => simp [updateLastWith] at h
  | cons i rest ih =>
    unfold updateLastWith at h
    by_cases ha : (rest.any fun j => decide (j.path = p)) = true
    · rw [if_pos ha] at h
      rcases List.mem_cons.mp h with h1 | h2
      · exact Or.inl (by simp [h1])
      · rcases ih h2 with h3 | ⟨i2, hi2, he⟩
        · exact Or.inl (List.mem_cons_of_mem _ h3)
        · exact Or.inr ⟨i2, List.mem_cons_of_mem _ hi2, he⟩
    · rw [if_neg ha] at h
      by_cases hp : i.path = p
      · rw [if_pos hp] at h
        rcases List.mem_cons.mp h with h1 | h2
        · exact Or.inr ⟨i, List.mem_cons_self _ _, h1⟩
        · exact Or.inl (List.mem_cons_of_mem _ h2)
      · rw [if_neg hp] at h
        rcases List.mem_cons.mp h with h1 | h2
        · exact Or.inl (by simp [h1])
        · rcases ih h2 with h3 | ⟨i2, hi2, he⟩
          · exact Or.inl (List.mem_cons_of_mem _ h3)
          · exact Or.inr ⟨i2, List.mem_cons_of_mem _ hi2, he⟩

theorem updateLast_noop (p : Str) (s : Stat) (items : List MediaItem)
    (h : ∀ i, repOf p items = some i → refreshItem s i = (i, false)) :
    updateLastWith p s items = (items, false) := by
  induction items with
  | nil => rfl
  | cons j rest ih =>
    cases hr : repOf p rest with
    | some r =>
      have ha : (rest.any fun j => decide (j.path = p)) = true := by
        rw [any_path_eq, hr]; rfl
      have hrest : updateLastWith p s rest = (rest, false) := by
        refine ih (fun i hi => h i ?_)
        unfold repOf
        rw [hi]
      unfold updateLastWith
      simp [ha, hrest]
    | none =>
      have ha : (rest.any fun j => decide (j.path = p)) = false := by
        rw [any_path_eq, hr]; rfl
      by_cases hp : j.path = p
      · have hj : repOf p (j :: rest) = some j := by
          unfold repOf
          rw [hr, if_pos hp]
        have := h j hj
        unfold updateLastWith
        simp [ha, hp, this]
      · unfold updateLastWith
        simp [ha, hp, updateLast_none p s rest hr]

theorem repOf_append_single (p : Str) (items : List MediaItem) (n : MediaItem) :
    repOf p (items ++ [n]) = if n.path = p then some n else repOf p items := by
  induction items with
  | nil => rfl
  | cons i rest ih =>
    show (match repOf p (rest ++ [n]) with
      | some r => some r
      | none => if i.path = p then some i else none) = _
    rw [ih]
    by_cases hn : n.path = p
    · simp [hn]
    · simp only [if_neg hn]
      rfl

theorem markMissing_map_path (o se : List Str) (items : List MediaItem) :
    (markMissing o se items).1.map MediaItem.path = items.map MediaItem.path := by
  induction items with
  | nil => rfl
  | cons i rest ih =>
    unfold markMissing
    by_cases ha : (rest.any fun j => decide (j.path = i.path)) = true
    · rw [if_pos ha]
      simp [ih]
    · rw [if_neg ha]
      by_cases hc : o.contains i.path = true ∧ se.contains i.path = false
        ∧ i.is_in_trash = false ∧ i.is_missing = false
      · rw [if_pos hc]
        simp [ih]
      · rw [if_neg hc]
        simp [ih]

theorem markMissing_seen_rep (o se : List Str) (q : Str) (items : List MediaItem)
    (hq : se.contains q = true) :
    repOf q (markMissing o se items).1 = repOf q items := by
  induction items with
  | nil => rfl
  | cons i rest ih =>
    unfold markMissing
    by_cases ha : (rest.any fun j => decide (j.path = i.path)) = true
    · rw [if_pos ha]
      unfold repOf
      rw [ih]
    · rw [if_neg ha]
      by_cases hc : o.contains i.path = true ∧ se.contains i.path = false
        ∧ i.is_in_trash = false ∧ i.is_missing = false
      · have hpq : ¬ i.path = q := by
          intro he
          rw [he] at hc
          rw [hq] at hc
          exact absurd hc.2.1 (by simp)
        rw [if_pos hc]
        unfold repOf
        rw [ih]
        cases repOf q rest with
        | some r => rfl
        | none => simp [hpq]
      · rw [if_neg hc]
        unfold repOf
        rw [ih]

theorem markMissing_unseen_rep (o se : List Str) (items : List MediaItem) (q : Str) (i : MediaItem)
    (h1 : o.contains q = true) (h2 : se.contains q = false)
    (h : repOf q (markMissing o se items).1 = some i) :
    i.is_in_trash = true ∨ i.is_missing = true := by
  induction items with
  | nil => simp [markMissing, repOf] at h
  | cons i0 rest ih =>
    unfold markMissing at h
    by_cases ha : (rest.any fun j => decide (j.path = i0.path)) = true
    · rw [if_pos ha] at h
      unfold repOf at h
      cases hr : repOf q (markMissing o se rest).1 with
      | some r =>
        rw [hr] at h
        exact ih (by rw [hr]; exact h)
      | none =>
        rw [hr] at h
        by_cases hpq : i0.path = q
        · have hiso : (repOf q (markMissing o se rest).1).isSome = true := by
            rw [repOf_isSome_iff, markMissing_map_path, ← repOf_isSome_iff, ← hpq,
              ← any_path_eq]
            exact ha
          rw [hr] at hiso
          simp at hiso
        · rw [if_neg hpq] at h
          simp at h
    · rw [if_neg ha] at h
      by_cases hc : o.contains i0.path = true ∧ se.contains i0.path = false
          ∧ i0.is_in_trash = false ∧ i0.is_missing = false
      · rw [if_pos hc] at h
        unfold repOf at h
        cases hr : repOf q (markMissing o se rest).1 with
        | some r =>
          rw [hr] at h
          exact ih (by rw [hr]; exact h)
        | none =>
          rw [hr] at h
          by_cases hpq : ({ i0 with is_missing := true } : MediaItem).path = q
          · rw [if_pos hpq] at h
            have : ({ i0 with is_missing := true } : MediaItem) = i := by simpa using h
            rw [← this]
            exact Or.inr rfl
          · rw [if_neg hpq] at h
            simp at h
      · rw [if_neg hc] at h
        unfold repOf at h
        cases hr : repOf q (markMissing o se rest).1 with
        | some r =>
          rw [hr] at h
          exact ih (by rw [hr]; exact h)
        | none =>
          rw [hr] at h
          by_cases hpq : i0.path = q
          · rw [if_pos hpq] at h
            have hi : i0 = i := by simpa using h
            rw [hpq] at hc
            by_cases ht : i0.is_in_trash = true
            · exact Or.inl (by rw [← hi]; exact ht)
            · refine Or.inr ?_
              rw [← hi]
              by_cases hm : i0.is_missing = true
              · exact hm
              · exact absurd ⟨h1, h2, by simpa using ht, by simpa using hm⟩ hc
          · rw [if_neg hpq] at h
            simp at h

theorem markMissing_noop (o se : List Str) (items : List MediaItem)
    (h : ∀ q i, repOf q items = some i →
      ¬(o.contains q = true ∧ se.contains q = false
        ∧ i.is_in_trash = false ∧ i.is_missing = false)) :
    markMissing o se items = (items, 0) := by
  induction items with
  | nil => rfl
  | cons i0 rest ih =>
    have hrest : markMissing o se rest = (rest, 0) := by
      refine ih (fun q i hi => h q i ?_)
      unfold repOf
      rw [hi]
    unfold markMissing
    rw [hrest]
    by_cases ha : (rest.any fun j => decide (j.path = i0.path)) = true
    · rw [if_pos ha]
    · rw [if_neg ha]
      have hnone : repOf i0.path rest = none := by
        cases hr : repOf i0.path rest with
        | none => rfl
        | some r => rw [any_path_eq, hr] at ha; simp at ha
      have hrep : repOf i0.path (i0 :: rest) = some i0 := by
        unfold repOf
        rw [hnone, if_pos rfl]
      have hnc := h i0.path i0 hrep
      rw [if_neg hnc]

theorem markMissing_mem (o se : List Str) (items : List MediaItem) (j : MediaItem)
    (h : j ∈ (markMissing o se items).1) :
    j ∈ items ∨ ∃ i, i ∈ items ∧ i.is_in_trash = false
      ∧ j = { i with is_missing := true } := by
  induction items with
  | nil => simp [markMissing] at h
  | cons i0 rest ih =>
    unfold markMissing at h
    by_cases ha : (rest.any fun j => decide (j.path = i0.path)) = true
    · rw [if_pos ha] at h
      rcases List.mem_cons.mp h with h1 | h2
      · exact Or.inl (by simp [h1])
      · rcases ih h2 with h3 | ⟨i2, hi2, ht2, he2⟩
        · exact Or.inl (List.mem_cons_of_mem _ h3)
        · exact Or.inr ⟨i2, List.mem_cons_of_mem _ hi2, ht2, he2⟩
    · rw [if_neg ha] at h
      by_cases hc : o.contains i0.path = true ∧ se.contains i0.path = false
          ∧ i0.is_in_trash = false ∧ i0.is_missing = false
      · rw [if_pos hc] at h
        rcases List.mem_cons.mp h with h1 | h2
        · exact Or.inr ⟨i0, List.mem_cons_self _ _, hc.2.2.1, h1⟩
        · rcases ih h2 with h3 | ⟨i2, hi2, ht2, he2⟩
          · exact Or.inl (List.mem_cons_of_mem _ h3)
          · exact Or.inr ⟨i2, List.mem_cons_of_mem _ hi2, ht2, he2⟩
      · rw [if_neg hc] at h
        rcases List.mem_cons.mp h with h1 | h2
        · exact Or.inl (by simp [h1])
        · rcases ih h2 with h3 | ⟨i2, hi2, ht2, he2⟩
          · exact Or.inl (List.mem_cons_of_mem _ h3)
          · exact Or.inr ⟨i2, List.mem_cons_of_mem _ hi2, ht2, he2⟩

theorem markMissing_filter_seen (o se : List Str) (q : Str) (items : List MediaItem)
    (hq : se.contains q = true) :
    (markMissing o se items).1.filter (fun j => decide (j.path = q))
      = items.filter (fun j => decide (j.path = q)) := by
  induction items with
  | nil => rfl
  | cons i rest ih =>
    unfold markMissing
    by_cases ha : (rest.any fun j => decide (j.path = i.path)) = true
    · rw [if_pos ha]
      simp [List.filter_cons, ih]
    · rw [if_neg ha]
      by_cases hc : o.contains i.path = true ∧ se.contains i.path = false
        ∧ i.is_in_trash = false ∧ i.is_missing = false
      · have hpq : ¬ i.path = q := by
          intro he
          rw [he, hq] at hc
          exact absurd hc.2.1 (by simp)
        rw [if_pos hc]
        simp [List.filter_cons, hpq, ih]
      · rw [if_neg hc]
        simp [List.filter_cons, ih]

theorem contains_iff (l : List Str) (p : Str) : l.contains p = true ↔ p ∈ l := by
  simp [List.elem_iff]

theorem scanStep_seen (o : List Str) (stat : Str → Option Stat) (st : ScanState) (p : Str) :
    (scanStep o stat st p).seen = seenInsert st.seen p := by
  cases hs : stat p with
  | none => simp only [scanStep, hs]
  | some s =>
    by_cases hc : o.contains p = true
    · simp only [scanStep, hs]
      rw [if_pos hc]
    · simp only [scanStep, hs]
      rw [if_neg hc]

theorem fold_seen (o : List Str) (stat : Str → Option Stat) (walked : List Str) (st : ScanState) :
    (walked.foldl (scanStep o stat) st).seen = walked.foldl seenInsert st.seen := by
  induction walked generalizing st with
  | nil => rfl
  | cons p rest ih =>
    rw [List.foldl_cons, List.foldl_cons, ih, scanStep_seen]

theorem mem_foldl_seenInsert (walked : List Str) (s : List Str) (p : Str) :
    p ∈ walked.foldl seenInsert s ↔ p ∈ s ∨ p ∈ walked := by
  induction walked generalizing s with
  | nil => simp
  | cons q rest ih =>
    rw [List.foldl_cons, ih]
    unfold seenInsert
    by_cases hc : s.contains q = true
    · have hqs : q ∈ s := (contains_iff s q).mp hc
      rw [if_pos hc]
      constructor
      · intro h
        rcases h with h | h
        · exact Or.inl h
        · exact Or.inr (List.mem_cons_of_mem _ h)
      · intro h
        rcases h with h | h
        · exact Or.inl h
        · rcases List.mem_cons.mp h with rfl | h2
          · exact Or.inl hqs
          · exact Or.inr h2
    · rw [if_neg hc]
      simp only [List.mem_append, List.mem_singleton, List.mem_cons]
      tauto

theorem fold_noop (o : List Str) (stat : Str → Option Stat) (walked : List Str) (st : ScanState)
    (h : ∀ p ∈ walked, ∀ s, stat p = some s →
      o.contains p = true ∧ updateLastWith p s st.items = (st.items, false)) :
    (walked.foldl (scanStep o stat) st).items = st.items
    ∧ (walked.foldl (scanStep o stat) st).created = st.created
    ∧ (walked.foldl (scanStep o stat) st).updated = st.updated := by
  induction walked generalizing st with
  | nil => exact ⟨rfl, rfl, rfl⟩
  | cons p rest ih =>
    have hstep : (scanStep o stat st p).items = st.items
        ∧ (scanStep o stat st p).created = st.created
        ∧ (scanStep o stat st p).updated = st.updated := by
      cases hs : stat p with
      | none => simp [scanStep, hs]
      | some s =>
        obtain ⟨hc, hu⟩ := h p (List.mem_cons_self _ _) s hs
        simp only [scanStep, hs]
        rw [if_pos hc, hu]
        exact ⟨rfl, rfl, by simp⟩
    rw [List.foldl_cons]
    obtain ⟨h1, h2, h3⟩ := ih (scanStep o stat st p)
      (fun q hq s hs => by
        obtain ⟨hc, hu⟩ := h q (List.mem_cons_of_mem _ hq) s hs
        exact ⟨hc, by rw [hstep.1]; exact hu⟩)
    exact ⟨by rw [h1, hstep.1], by rw [h2, hstep.2.1], by rw [h3, hstep.2.2]⟩

theorem newItem_path (p : Str) (s : Stat) : (newItem p s).path = p := rfl

theorem fold_char (o : List Str) (stat : Str → Option Stat) (walked : List Str)
    (hnd : walked.Nodup) (st : ScanState)
    (ho : ∀ p, o.contains p = true → (repOf p st.items).isSome = true) :
    (∀ p ∈ walked, ∀ s, stat p = some s →
       ∃ i, repOf p (walked.foldl (scanStep o stat) st).items = some i
         ∧ i.size_bytes = s.st_size ∧ i.modified_at = some s.st_mtime ∧ i.is_missing = false)
    ∧ (∀ q, q ∉ walked →
        repOf q (walked.foldl (scanStep o stat) st).items = repOf q st.items)
    ∧ (∀ p, (repOf p (walked.foldl (scanStep o stat) st).items).isSome = true →
        (repOf p st.items).isSome = true ∨ p ∈ walked) := by
  induction walked generalizing st with
  | nil =>
    exact ⟨by simp, fun q _ => rfl, fun p h => Or.inl h⟩
  | cons p rest ih =>
    have hp_notin : p ∉ rest := (List.nodup_cons.mp hnd).1
    have hnd_rest : rest.Nodup := (List.nodup_cons.mp hnd).2
    have step_other : ∀ q, q ≠ p →
        repOf q (scanStep o stat st p).items = repOf q st.items := by
      intro q hq
      cases hs : stat p with
      | none => simp only [scanStep, hs]
      | some s =>
        simp only [scanStep, hs]
        by_cases hc : o.contains p = true
        · rw [if_pos hc]
          exact updateLast_other p s q st.items hq
        · rw [if_neg hc]
          rw [repOf_append_single]
          rw [if_neg (by rw [newItem_path]; exact fun he => hq he.symm)]
    have step_self : ∀ s, stat p = some s →
        ∃ i, repOf p (scanStep o stat st p).items = some i
          ∧ i.size_bytes = s.st_size ∧ i.modified_at = some s.st_mtime
          ∧ i.is_missing = false := by
      intro s hs
      simp only [scanStep, hs]
      by_cases hc : o.contains p = true
      · obtain ⟨i0, hi0⟩ := Option.isSome_iff_exists.mp (ho p hc)
        refine ⟨(refreshItem s i0).1, ?_, (refreshItem_flags s i0).2.1,
          (refreshItem_flags s i0).2.2.1, (refreshItem_flags s i0).2.2.2.1⟩
        rw [if_pos hc]
        exact (updateLast_rep p s st.items i0 hi0).1
      · refine ⟨newItem p s, ?_, rfl, rfl, rfl⟩
        rw [if_neg hc]
        rw [repOf_append_single, if_pos (newItem_path p s)]
    have step_isSome_back : ∀ q, (repOf q (scanStep o stat st p).items).isSome = true →
        (repOf q st.items).isSome = true ∨ q = p := by
      intro q hq
      cases hs : stat p with
      | none => simp only [scanStep, hs] at hq; exact Or.inl hq
      | some s =>
        simp only [scanStep, hs] at hq
        by_cases hc : o.contains p = true
        · rw [if_pos hc] at hq
          rw [repOf_isSome_iff, updateLast_map_path, ← repOf_isSome_iff] at hq
          exact Or.inl hq
        · rw [if_neg hc] at hq
          rw [repOf_append_single] at hq
          by_cases hqp : q = p
          · exact Or.inr hqp
          · rw [if_neg (by rw [newItem_path]; exact fun he => hqp he.symm)] at hq
            exact Or.inl hq
    have step_isSome_fwd : ∀ q, (repOf q st.items).isSome = true →
        (repOf q (scanStep o stat st p).items).isSome = true := by
      intro q hq
      cases hs : stat p with
      | none => simp only [scanStep, hs]; exact hq
      | some s =>
        simp only [scanStep, hs]
        by_cases hc : o.contains p = true
        · rw [if_pos hc]
          rw [repOf_isSome_iff, updateLast_map_path, ← repOf_isSome_iff]
          exact hq
        · rw [if_neg hc]
          rw [repOf_append_single]
          by_cases hqp : (newItem p s).path = q
          · rw [if_pos hqp]; rfl
          · rw [if_neg hqp]; exact hq
    obtain ⟨A, B, C⟩ := ih hnd_rest (scanStep o stat st p)
      (fun q hq => step_isSome_fwd q (ho q hq))
    rw [List.foldl_cons]
    refine ⟨?_, ?_, ?_⟩
    · intro q hq s hs
      rcases List.mem_cons.mp hq with rfl | hq'
      · obtain ⟨i, hi, h1, h2, h3⟩ := step_self s hs
        exact ⟨i, by rw [B q hp_notin, hi], h1, h2, h3⟩
      · exact A q hq' s hs
    · intro q hq
      have hq1 : q ∉ rest := fun hc => hq (List.mem_cons_of_mem _ hc)
      have hq2 : q ≠ p := fun he => hq (he ▸ List.mem_cons_self _ _)
      rw [B q hq1, step_other q hq2]
    · intro q hq
      rcases C q hq with h1 | h2
      · rcases step_isSome_back q h1 with h3 | rfl
        · exact Or.inl h3
        · exact Or.inr (List.mem_cons_self _ _)
      · exact Or.inr (List.mem_cons_of_mem _ h2)

theorem fold_filter_stat_none (o : List Str) (stat : Str → Option Stat) (walked : List Str)
    (st : ScanState) (p : Str) (hp : stat p = none) :
    (walked.foldl (scanStep o stat) st).items.filter (fun j => decide (j.path = p))
      = st.items.filter (fun j => decide (j.path = p)) := by
  induction walked generalizing st with
  | nil => rfl
  | cons q rest ih =>
    rw [List.foldl_cons, ih]
    cases hs : stat q with
    | none => simp only [scanStep, hs]
    | some s =>
      have hqp : q ≠ p := fun he => by rw [he, hp] at hs; exact absurd hs (by simp)
      simp only [scanStep, hs]
      by_cases hc : o.contains q = true
      · rw [if_pos hc]
        exact updateLast_filter q s p st.items (Ne.symm hqp)
      · rw [if_neg hc]
        rw [List.filter_append]
        have : ((newItem q s).path = p) = False := by
          rw [newItem_path]
          exact eq_false hqp
        simp [this]

theorem fold_inv (o : List Str) (stat : Str → Option Stat) (walked : List Str) (st : ScanState)
    (h : ∀ j ∈ st.items, ¬(j.is_in_trash = true ∧ j.is_missing = true)) :
    ∀ j ∈ (walked.foldl (scanStep o stat) st).items,
      ¬(j.is_in_trash = true ∧ j.is_missing = true) := by
  induction walked generalizing st with
  | nil => exact h
  | cons p rest ih =>
    rw [List.foldl_cons]
    refine ih (scanStep o stat st p) ?_
    intro j hj
    cases hs : stat p with
    | none => simp only [scanStep, hs] at hj; exact h j hj
    | some s =>
      simp only [scanStep, hs] at hj
      by_cases hc : o.contains p = true
      · rw [if_pos hc] at hj
        rcases updateLast_mem p s st.items j hj with h1 | ⟨i, hi, he⟩
        · exact h j h1
        · rw [he]
          intro hcon
          rw [(refreshItem_flags s i).2.2.2.1] at hcon
          exact absurd hcon.2 (by simp)
      · rw [if_neg hc] at hj
        rcases List.mem_append.mp hj with h1 | h2
        · exact h j h1
        · rw [List.mem_singleton.mp h2]
          intro hcon
          exact absurd hcon.1 (by simp [newItem])

theorem scan_pass_idem (stat : Str → Option Stat) (walked : List Str) (hnd : walked.Nodup)
    (items0 items1 : List MediaItem) (F1 : ScanState) (n1 : Nat)
    (hF1 : F1 = walked.foldl (scanStep (items0.map MediaItem.path) stat) ⟨items0, [], 0, 0, 0⟩)
    (hM1 : markMissing (items0.map MediaItem.path) F1.seen F1.items = (items1, n1)) :
    (walked.foldl (scanStep (items1.map MediaItem.path) stat) ⟨items1, [], 0, 0, 0⟩).items = items1
    ∧ (walked.foldl (scanStep (items1.map MediaItem.path) stat) ⟨items1, [], 0, 0, 0⟩).created = 0
    ∧ (walked.foldl (scanStep (items1.map MediaItem.path) stat) ⟨items1, [], 0, 0, 0⟩).updated = 0
    ∧ markMissing (items1.map MediaItem.path)
        (walked.foldl (scanStep (items1.map MediaItem.path) stat) ⟨items1, [], 0, 0, 0⟩).seen
        (walked.foldl (scanStep (items1.map MediaItem.path) stat) ⟨items1, [], 0, 0, 0⟩).items
      = (items1, 0)
    ∧ (walked.foldl (scanStep (items1.map MediaItem.path) stat) ⟨items1, [], 0, 0, 0⟩).seen
      = F1.seen := by
  have hitems1 : items1 = (markMissing (items0.map MediaItem.path) F1.seen F1.items).1 := by
    rw [hM1]
  have ho_init : ∀ p, (items0.map MediaItem.path).contains p = true →
      (repOf p items0).isSome = true := by
    intro p hp
    exact (repOf_isSome_iff p items0).mpr ((contains_iff _ _).mp hp)
  obtain ⟨A1, B1, C1⟩ := fold_char (items0.map MediaItem.path) stat walked hnd
    ⟨items0, [], 0, 0, 0⟩ ho_init
  have hseen1 : F1.seen = walked.foldl seenInsert [] := by
    rw [hF1, fold_seen]
  have hseen1_mem : ∀ p, p ∈ F1.seen ↔ p ∈ walked := by
    intro p
    rw [hseen1, mem_foldl_seenInsert]
    simp
  have rep1_walked : ∀ p ∈ walked, ∀ s, stat p = some s →
      ∃ i, repOf p items1 = some i ∧ i.size_bytes = s.st_size
        ∧ i.modified_at = some s.st_mtime ∧ i.is_missing = false := by
    intro p hp s hs
    obtain ⟨i, hi, h1, h2, h3⟩ := A1 p hp s hs
    refine ⟨i, ?_, h1, h2, h3⟩
    rw [hitems1, markMissing_seen_rep _ _ _ _ ((contains_iff _ _).mpr ((hseen1_mem p).mpr hp))]
    rw [← hF1] at hi
    exact hi
  have paths1 : items1.map MediaItem.path = F1.items.map MediaItem.path := by
    rw [hitems1, markMissing_map_path]
  have walked_in_paths1 : ∀ p ∈ walked, ∀ s, stat p = some s →
      p ∈ items1.map MediaItem.path := by
    intro p hp s hs
    obtain ⟨i, hi, _, _, _⟩ := rep1_walked p hp s hs
    exact (repOf_isSome_iff p items1).mp (by rw [hi]; rfl)
  have unseen1 : ∀ q i, repOf q items1 = some i → q ∉ walked →
      i.is_in_trash = true ∨ i.is_missing = true := by
    intro q i hi hq
    have hcont : (items0.map MediaItem.path).contains q = true := by
      have hq1 : (repOf q items1).isSome = true := by rw [hi]; rfl
      have hq2 : q ∈ items1.map MediaItem.path := (repOf_isSome_iff q items1).mp hq1
      rw [paths1] at hq2
      have hq3 : (repOf q F1.items).isSome = true := (repOf_isSome_iff q F1.items).mpr hq2
      rw [hF1] at hq3
      rcases C1 q hq3 with h1 | h2
      · exact (contains_iff _ _).mpr ((repOf_isSome_iff q items0).mp h1)
      · exact absurd h2 hq
    have hse : F1.seen.contains q = false := by
      rcases hcb : F1.seen.contains q with _ | _
      · rfl
      · exact absurd ((hseen1_mem q).mp ((contains_iff _ _).mp hcb)) hq
    refine markMissing_unseen_rep (items0.map MediaItem.path) F1.seen F1.items q i hcont hse ?_
    rw [← hitems1]
    exact hi
  have hnoop2 := fold_noop (items1.map MediaItem.path) stat walked ⟨items1, [], 0, 0, 0⟩
    (by
      intro p hp s hs
      constructor
      · exact (contains_iff _ _).mpr (walked_in_paths1 p hp s hs)
      · refine updateLast_noop p s items1 ?_
        intro i hi
        obtain ⟨i0, hi0, h1, h2, h3⟩ := rep1_walked p hp s hs
        have : i = i0 := by
          rw [hi] at hi0
          exact Option.some_inj.mp hi0
        rw [this]
        exact refreshItem_noop s i0 h1 h2 h3)
  have hseen2 : (walked.foldl (scanStep (items1.map MediaItem.path) stat)
      ⟨items1, [], 0, 0, 0⟩).seen = F1.seen := by
    rw [fold_seen, hseen1]
  refine ⟨hnoop2.1, hnoop2.2.1, hnoop2.2.2, ?_, hseen2⟩
  rw [hnoop2.1]
  refine markMissing_noop _ _ _ ?_
  intro q i hi
  intro hcon
  by_cases hq : q ∈ walked
  · have : (walked.foldl (scanStep (items1.map MediaItem.path) stat)
        ⟨items1, [], 0, 0, 0⟩).seen.contains q = true := by
      rw [hseen2]
      exact (contains_iff _ _).mpr ((hseen1_mem q).mpr hq)
    rw [hcon.2.1] at this
    exact absurd this (by simp)
  · rcases unseen1 q i hi hq with h1 | h1
    · rw [hcon.2.2.1] at h1
      exact absurd h1 (by simp)
    · rw [hcon.2.2.2] at h1
      exact absurd h1 (by simp)

/-- C2: reconcile is idempotent.  For every library, disk state and row
state, a second scan run immediately after a completed pass, with the same
disk contents and the same mid-walk vanish behaviour, creates nothing,
updates nothing, flags nothing missing, and leaves every row exactly as the
first pass left it; in particular an already-missing item whose file is
still absent is left as is and not counted again. -/
theorem c2_reconcile_idempotent (lib : Library) (fs : List (Str × Stat)) (vanished : List Str)
    (items0 : List MediaItem) (hnd : (fs.map Prod.fst).Nodup) :
    (scan_library lib fs vanished (scan_library lib fs vanished items0).1).2.created = 0
    ∧ (scan_library lib fs vanished (scan_library lib fs vanished items0).1).2.updated = 0
    ∧ (scan_library lib fs vanished (scan_library lib fs vanished items0).1).2.missing = 0
    ∧ (scan_library lib fs vanished (scan_library lib fs vanished items0).1).1
      = (scan_library lib fs vanished items0).1 := by
  by_cases hen : lib.enable_filesystem = false
  · simp [scan_library, hen]
  · have hval : ∀ its : List MediaItem,
        scan_library lib fs vanished its
          = ((markMissing (its.map MediaItem.path)
                ((iter_files lib.root_path fs).foldl
                  (scanStep (its.map MediaItem.path) (statOf fs vanished))
                  ⟨its, [], 0, 0, 0⟩).seen
                ((iter_files lib.root_path fs).foldl
                  (scanStep (its.map MediaItem.path) (statOf fs vanished))
                  ⟨its, [], 0, 0, 0⟩).items).1,
             { scanned := ((iter_files lib.root_path fs).foldl
                  (scanStep (its.map MediaItem.path) (statOf fs vanished))
                  ⟨its, [], 0, 0, 0⟩).seen.length,
               updated := ((iter_files lib.root_path fs).foldl
                  (scanStep (its.map MediaItem.path) (statOf fs vanished))
                  ⟨its, [], 0, 0, 0⟩).updated,
               created := ((iter_files lib.root_path fs).foldl
                  (scanStep (its.map MediaItem.path) (statOf fs vanished))
                  ⟨its, [], 0, 0, 0⟩).created,
               missing := (markMissing (its.map MediaItem.path)
                ((iter_files lib.root_path fs).foldl
                  (scanStep (its.map MediaItem.path) (statOf fs vanished))
                  ⟨its, [], 0, 0, 0⟩).seen
                ((iter_files lib.root_path fs).foldl
                  (scanStep (its.map MediaItem.path) (statOf fs vanished))
                  ⟨its, [], 0, 0, 0⟩).items).2 }) := by
      intro its
      unfold scan_library
      rw [if_neg hen]
    have hndw : (iter_files lib.root_path fs).Nodup := by
      unfold iter_files
      exact ((List.filter_sublist fs).map Prod.fst).nodup hnd
    obtain ⟨hI, hC, hU, hM, hS⟩ := scan_pass_idem (statOf fs vanished)
      (iter_files lib.root_path fs) hndw items0
      (markMissing (items0.map MediaItem.path)
        ((iter_files lib.root_path fs).foldl
          (scanStep (items0.map MediaItem.path) (statOf fs vanished))
          ⟨items0, [], 0, 0, 0⟩).seen
        ((iter_files lib.root_path fs).foldl
          (scanStep (items0.map MediaItem.path) (statOf fs vanished))
          ⟨items0, [], 0, 0, 0⟩).items).1
      ((iter_files lib.root_path fs).foldl
        (scanStep (items0.map MediaItem.path) (statOf fs vanished)) ⟨items0, [], 0, 0, 0⟩)
      (markMissing (items0.map MediaItem.path)
        ((iter_files lib.root_path fs).foldl
          (scanStep (items0.map MediaItem.path) (statOf fs vanished))
          ⟨items0, [], 0, 0, 0⟩).seen
        ((iter_files lib.root_path fs).foldl
          (scanStep (items0.map MediaItem.path) (statOf fs vanished))
          ⟨items0, [], 0, 0, 0⟩).items).2
      rfl rfl
    rw [hval items0]
    rw [hval ((markMissing (items0.map MediaItem.path)
        ((iter_files lib.root_path fs).foldl
          (scanStep (items0.map MediaItem.path) (statOf fs vanished))
          ⟨items0, [], 0, 0, 0⟩).seen
        ((iter_files lib.root_path fs).foldl
          (scanStep (items0.map MediaItem.path) (statOf fs vanished))
          ⟨items0, [], 0, 0, 0⟩).items).1)]
    refine ⟨hC, hU, ?_, ?_⟩
    · rw [hM]
    · rw [hM]

/-- C2 witness disk: one video file under the library root. -/
def c2Fs : List (Str × Stat) := [("/lib/a.mkv".data, ⟨3, 4⟩)]

/-- C2 witness: the idempotence theorem applied to a concrete library and
disk, the distinctness of disk paths discharged by evaluation. -/
theorem c2_reconcile_idempotent_witness :
    (scan_library c1Lib c2Fs [] (scan_library c1Lib c2Fs [] []).1).2.created = 0
    ∧ (scan_library c1Lib c2Fs [] (scan_library c1Lib c2Fs [] []).1).2.missing = 0 :=
  ⟨(c2_reconcile_idempotent c1Lib c2Fs [] [] (by decide)).1,
   (c2_reconcile_idempotent c1Lib c2Fs [] [] (by decide)).2.2.1⟩

/-- C10: a walker-yielded path whose stat raises FileNotFoundError is in the
seen set and in the scanned total, and every row bearing that path comes out
of the pass exactly as it went in, so it is not flagged missing even though
its file vanished mid-walk. -/
theorem c10_vanished_mid_walk (lib : Library) (fs : List (Str × Stat)) (vanished : List Str)
    (items0 : List MediaItem) (p : Str)
    (hen : lib.enable_filesystem = true)
    (hw : p ∈ iter_files lib.root_path fs)
    (hv : statOf fs vanished p = none) :
    (scan_library lib fs vanished items0).1.filter (fun j => decide (j.path = p))
      = items0.filter (fun j => decide (j.path = p))
    ∧ (scan_library lib fs vanished items0).2.scanned
      = ((iter_files lib.root_path fs).foldl seenInsert []).length
    ∧ p ∈ (iter_files lib.root_path fs).foldl seenInsert [] := by
  have hen' : ¬ lib.enable_filesystem = false := by rw [hen]; simp
  unfold scan_library
  rw [if_neg hen']
  dsimp only
  have hseen : ((iter_files lib.root_path fs).foldl
      (scanStep (items0.map MediaItem.path) (statOf fs vanished))
      ⟨items0, [], 0, 0, 0⟩).seen = (iter_files lib.root_path fs).foldl seenInsert [] := by
    rw [fold_seen]
  have hpseen : p ∈ (iter_files lib.root_path fs).foldl seenInsert [] :=
    (mem_foldl_seenInsert _ _ _).mpr (Or.inr hw)
  refine ⟨?_, ?_, hpseen⟩
  · rw [markMissing_filter_seen _ _ _ _ (by rw [hseen]; exact (contains_iff _ _).mpr hpseen)]
    rw [fold_filter_stat_none _ _ _ _ _ hv]
  · rw [hseen]

/-- C10 witness row at the vanished path. -/
def c10Item : MediaItem := { plainItem with id := 3, path := "/lib/a.mkv".data }

/-- C10 witness: the theorem applied at a disk whose only file vanishes
between listing and stat, with an inventory row at that path; the row list
is unchanged and the scanned count still includes the path. -/
theorem c10_vanished_mid_walk_witness :
    (scan_library c1Lib c2Fs ["/lib/a.mkv".data] [c10Item]).1.filter
        (fun j => decide (j.path = "/lib/a.mkv".data))
      = [c10Item].filter (fun j => decide (j.path = "/lib/a.mkv".data)) :=
  (c10_vanished_mid_walk c1Lib c2Fs ["/lib/a.mkv".data] [c10Item] ("/lib/a.mkv".data)
    (by decide) (by decide) (by decide)).1

theorem scan_library_inv (lib : Library) (fs : List (Str × Stat)) (vanished : List Str)
    (items0 : List MediaItem)
    (h : ∀ j ∈ items0, ¬(j.is_in_trash = true ∧ j.is_missing = true)) :
    ∀ j ∈ (scan_library lib fs vanished items0).1,
      ¬(j.is_in_trash = true ∧ j.is_missing = true) := by
  unfold scan_library
  by_cases hen : lib.enable_filesystem = false
  · rw [if_pos hen]
    exact h
  · rw [if_neg hen]
    intro j hj
    rcases markMissing_mem _ _ _ j hj with h1 | ⟨i, hi, ht, he⟩
    · exact fold_inv _ _ _ _ h j h1
    · rw [he]
      intro hcon
      have : ({ i with is_missing := true } : MediaItem).is_in_trash = i.is_in_trash := rfl
      rw [this, ht] at hcon
      exact absurd hcon.1 (by simp)

/-- The filesystem as a finite map from file path to stat data; directories
are not modelled, so the best-effort removal of emptied parent directories
inside move_to_trash is a no-op here. -/
abbrev Fs := List (Str × Stat)

/-- Overwrite-insert into the filesystem map. -/
def fsInsert (p : Str) (st : Stat) (fs : Fs) : Fs :=
  (p, st) :: fs.filter (fun e => decide (e.1 ≠ p))

/-- Remove a path from the filesystem map. -/
def fsErase (p : Str) (fs : Fs) : Fs :=
  fs.filter (fun e => decide (e.1 ≠ p))

/-- shutil.move on the file map: move the stat entry of src to dst. -/
def fsMove (src dst : Str) (fs : Fs) : Fs :=
  match dictGet src fs with
  | none => fs
  | some st => fsInsert dst st (fsErase src fs)

/-- trash.py trash root helper: the .trash subtree of the library root. -/
def trash_root (lib : Library) : Str :=
  pathJoin lib.root_path (".trash".data)

/-- pathlib relative_to: the components of src past the root when the root
components prefix them, else the ValueError branch. -/
def relTo (root src : Str) : Option (List Str) :=
  if (splitSlash root).isPrefixOf (splitSlash src) then
    some ((splitSlash src).drop (splitSlash root).length)
  else none

/-- trash.py move_to_trash lines 25 to 31: the destination under the trash
root mirroring the path relative to the library root, or the bare file name
when the path lies outside the root.  An empty relative path, the pathlib
dot, joins to the trash root itself. -/
def trashDst (lib : Library) (src : Str) : Str :=
  match relTo lib.root_path src with
  | some r => if r = [] then trash_root lib else pathJoin (trash_root lib) (joinSlash r)
  | none => pathJoin (trash_root lib) (osBasename src)

/-- The dict move_to_trash returns, reduced to its discriminating fields. -/
inductive MoveResult
  | already_in_trash
  | missing
  | moved (trashed_path : Str) (purge_after : Int)
deriving DecidableEq

/-- The dict restore_from_trash returns, reduced likewise. -/
inductive RestoreResult
  | missing
  | invalid_trash_path
  | restored (restored_path : Str)
deriving DecidableEq

/-- The whole state the trash lifecycle acts on: disk, item rows, trash
entry rows. -/
structure SysState where
  fs : Fs
  items : List MediaItem
  entries : List TrashEntry

/-- db.get by primary key followed by in-place mutation: rewrite the first
row with the given id. -/
def setById (iid : Nat) (f : MediaItem → MediaItem) : List MediaItem → List MediaItem
  | [] => []
  | i :: rest => if i.id = iid then f i :: rest else i :: setById iid f rest

/-- Remove one row, the first occurrence, mirroring db.delete of a row. -/
def removeFirst (e : TrashEntry) : List TrashEntry → List TrashEntry
  | [] => []
  | x :: rest => if x = e then rest else x :: removeFirst e rest

/-- trash.py move_to_trash, acting on the row at position k: refuse when
already trashed or when the file is gone, else move the file under the
trash root, set the trash flags and clear the missing flag on the row, and
append one TrashEntry with the purge deadline. -/
def move_to_trash (lib : Library) (now : Int) (st : SysState) (k : Nat) :
    SysState × MoveResult :=
  match st.items.get? k with
  | none => (st, MoveResult.missing)
  | some item =>
    if item.is_in_trash = true then (st, MoveResult.already_in_trash)
    else if (dictGet item.path st.fs).isSome = false then (st, MoveResult.missing)
    else
      let dst := trashDst lib item.path
      let item2 := { item with
        is_in_trash := true
        is_missing := false
        trashed_at := some now
        trashed_path := some dst }
      let entry : TrashEntry := { library_id := lib.id, media_item_id := item.id,
                                  original_path := item.path, trashed_path := dst,
                                  trashed_at := now,
                                  purge_after := now + lib.trash_retention_days }
      ({ fs := fsMove item.path dst st.fs, items := st.items.set k item2,
         entries := st.entries ++ [entry] },
       MoveResult.moved dst (now + lib.trash_retention_days))

/-- trash.py restore_from_trash: refuse when the trashed file is absent or
its path has no .trash segment, else move the file back to the original
path, clear the trash fields and repoint the path of the row found by id,
and delete the entry. -/
def restore_from_trash (lib : Library) (st : SysState) (e : TrashEntry) :
    SysState × RestoreResult :=
  if (dictGet e.trashed_path st.fs).isSome = false then (st, RestoreResult.missing)
  else if (".trash".data) ∈ splitSlash e.trashed_path then
    ({ fs := fsMove e.trashed_path e.original_path st.fs,
       items := setById e.media_item_id
         (fun i => { i with
            is_in_trash := false
            trashed_at := none
            trashed_path := none
            path := e.original_path }) st.items,
       entries := removeFirst e st.entries },
     RestoreResult.restored e.original_path)
  else (st, RestoreResult.invalid_trash_path)

/-- trash.py purge_expired_trash, one entry: a non-expired entry is kept; an
expired entry whose file exists under a .trash segment has the file deleted,
and a deletion failure, modelled by membership in the failure set, logs and
keeps the entry; in every other case the entry row is deleted. -/
def purgeStep (now : Int) (failSet : List Str) (acc : Fs × List TrashEntry) (e : TrashEntry) :
    Fs × List TrashEntry :=
  if e.purge_after ≤ now then
    if (dictGet e.trashed_path acc.1).isSome = true
        ∧ (".trash".data) ∈ splitSlash e.trashed_path then
      if e.trashed_path ∈ failSet then (acc.1, acc.2 ++ [e])
      else (fsErase e.trashed_path acc.1, acc.2)
    else (acc.1, acc.2)
  else (acc.1, acc.2 ++ [e])

/-- trash.py purge_expired_trash over all entry rows: the expired ones are
processed in order, the rest are untouched. -/
def purge_expired_trash (now : Int) (failSet : List Str) (fs : Fs)
    (entries : List TrashEntry) : Fs × List TrashEntry :=
  entries.foldl (purgeStep now failSet) (fs, [])

theorem fsErase_get (p q : Str) (fs : Fs) :
    dictGet q (fsErase p fs) = if q = p then none else dictGet q fs := by
  induction fs with
  | nil => by_cases h : q = p <;> simp [fsErase, dictGet, h]
  | cons e rest ih =>
    obtain ⟨k, v⟩ := e
    unfold fsErase at ih ⊢
    rw [List.filter_cons]
    by_cases h1 : k = p <;> by_cases h2 : k = q <;> by_cases h3 : q = p <;>
      simp_all [dictGet]

theorem purgeStep_fs_mono (now : Int) (failSet : List Str) (acc : Fs × List TrashEntry)
    (e : TrashEntry) (p : Str) (st : Stat)
    (h : dictGet p (purgeStep now failSet acc e).1 = some st) :
    dictGet p acc.1 = some st := by
  unfold purgeStep at h
  split at h
  · split at h
    · split at h
      · exact h
      · rw [fsErase_get] at h
        split at h
        · exact absurd h (by simp)
        · exact h
    · exact h
  · exact h

theorem purgeStep_isSome_mono (now : Int) (failSet : List Str) (acc : Fs × List TrashEntry)
    (e : TrashEntry) (p : Str)
    (h : (dictGet p (purgeStep now failSet acc e).1).isSome = true) :
    (dictGet p acc.1).isSome = true := by
  obtain ⟨st, hst⟩ := Option.isSome_iff_exists.mp h
  rw [purgeStep_fs_mono now failSet acc e p st hst]
  rfl

theorem purge_fold_fs_mono (now : Int) (failSet : List Str) (entries : List TrashEntry) :
    ∀ (acc : Fs × List TrashEntry) (p : Str) (st : Stat),
      dictGet p (entries.foldl (purgeStep now failSet) acc).1 = some st →
      dictGet p acc.1 = some st := by
  induction entries with
  | nil => intro acc p st h; exact h
  | cons e rest ih =>
    intro acc p st h
    exact purgeStep_fs_mono now failSet acc e p st (ih (purgeStep now failSet acc e) p st h)

theorem purge_fold_fs_removed (now : Int) (failSet : List Str) (entries : List TrashEntry) :
    ∀ (acc : Fs × List TrashEntry) (p : Str),
      (dictGet p acc.1).isSome = true →
      (dictGet p (entries.foldl (purgeStep now failSet) acc).1).isSome = false →
      (".trash".data) ∈ splitSlash p ∧ p ∉ failSet := by
  induction entries with
  | nil =>
    intro acc p h1 h2
    rw [List.foldl_nil] at h2
    rw [h1] at h2
    exact absurd h2 (by simp)
  | cons e rest ih =>
    intro acc p h1 h2
    by_cases hstep : (dictGet p (purgeStep now failSet acc e).1).isSome = true
    · exact ih (purgeStep now failSet acc e) p hstep h2
    · unfold purgeStep at hstep
      split at hstep
      · split at hstep
        · split at hstep
          · exact absurd h1 hstep
          · rename_i hguard hnf
            rw [fsErase_get] at hstep
            by_cases hpe : p = e.trashed_path
            · rw [hpe]
              exact ⟨hguard.2, hnf⟩
            · rw [if_neg hpe] at hstep
              exact absurd h1 hstep
        · exact absurd h1 hstep
      · exact absurd h1 hstep

theorem purge_fold_kept_acc (now : Int) (failSet : List Str) (entries : List TrashEntry) :
    ∀ (acc : Fs × List TrashEntry) (x : TrashEntry), x ∈ acc.2 →
      x ∈ (entries.foldl (purgeStep now failSet) acc).2 := by
  induction entries with
  | nil => intro acc x h; exact h
  | cons e rest ih =>
    intro acc x h
    refine ih (purgeStep now failSet acc e) x ?_
    unfold purgeStep
    split
    · split
      · split
        · exact List.mem_append_left _ h
        · exact h
      · exact h
    · exact List.mem_append_left _ h

theorem purge_fold_kept_src (now : Int) (failSet : List Str) (entries : List TrashEntry) :
    ∀ (acc : Fs × List TrashEntry) (x : TrashEntry),
      x ∈ (entries.foldl (purgeStep now failSet) acc).2 →
      x ∈ acc.2 ∨ (x ∈ entries ∧ (¬ x.purge_after ≤ now
        ∨ ((dictGet x.trashed_path acc.1).isSome = true
          ∧ (".trash".data) ∈ splitSlash x.trashed_path ∧ x.trashed_path ∈ failSet))) := by
  induction entries with
  | nil => intro acc x h; exact Or.inl h
  | cons e rest ih =>
    intro acc x h
    rcases ih (purgeStep now failSet acc e) x h with h1 | ⟨hx, hc⟩
    · unfold purgeStep at h1
      split at h1
      · split at h1
        · split at h1
          · rcases List.mem_append.mp h1 with h2 | h2
            · exact Or.inl h2
            · rename_i hexp hguard hf
              rw [List.mem_singleton.mp h2]
              exact Or.inr ⟨List.mem_cons_self _ _, Or.inr ⟨hguard.1, hguard.2, hf⟩⟩
          · exact Or.inl h1
        · exact Or.inl h1
      · rcases List.mem_append.mp h1 with h2 | h2
        · exact Or.inl h2
        · rename_i hexp
          rw [List.mem_singleton.mp h2]
          exact Or.inr ⟨List.mem_cons_self _ _, Or.inl hexp⟩
    · refine Or.inr ⟨List.mem_cons_of_mem _ hx, ?_⟩
      rcases hc with h2 | ⟨h3, h4, h5⟩
      · exact Or.inl h2
      · exact Or.inr ⟨purgeStep_isSome_mono now failSet acc e _ h3, h4, h5⟩

theorem purge_fold_kept_notexp (now : Int) (failSet : List Str) (entries : List TrashEntry) :
    ∀ (acc : Fs × List TrashEntry) (x : TrashEntry), x ∈ entries → ¬ x.purge_after ≤ now →
      x ∈ (entries.foldl (purgeStep now failSet) acc).2 := by
  induction entries with
  | nil =>
    intro acc x h _
    simp at h
  | cons e rest ih =>
    intro acc x hx hne
    rw [List.foldl_cons]
    rcases List.mem_cons.mp hx with rfl | h2
    · refine purge_fold_kept_acc now failSet rest _ x ?_
      unfold purgeStep
      rw [if_neg hne]
      exact List.mem_append_right _ (List.mem_singleton_self _)
    · exact ih (purgeStep now failSet acc e) x h2 hne

/-- C8: the purge sweep never deletes a file whose trashed path lacks a
.trash segment, and deletes a file only when its own deletion did not fail;
an expired entry that does not hit a deletion failure is removed from the
store, in particular when the guard passes and the removal completes, and
when the file is already absent; an entry still present after the sweep is
either not yet expired or was kept by precisely a deletion failure on an
existing .trash file, so one failure skips only that entry and never aborts
the batch. -/
theorem c8_purge_never_deletes_outside_trash (now : Int) (failSet : List Str) (fs : Fs)
    (entries : List TrashEntry) :
    (∀ p st, dictGet p (purge_expired_trash now failSet fs entries).1 = some st →
        dictGet p fs = some st)
    ∧ (∀ p, (dictGet p fs).isSome = true →
        (dictGet p (purge_expired_trash now failSet fs entries).1).isSome = false →
        (".trash".data) ∈ splitSlash p ∧ p ∉ failSet)
    ∧ (∀ e, e ∈ entries → e.purge_after ≤ now → e.trashed_path ∉ failSet →
        e ∉ (purge_expired_trash now failSet fs entries).2)
    ∧ (∀ e, e ∈ entries → e.purge_after ≤ now →
        (dictGet e.trashed_path fs).isSome = false →
        e ∉ (purge_expired_trash now failSet fs entries).2)
    ∧ (∀ e, e ∈ (purge_expired_trash now failSet fs entries).2 →
        e ∈ entries ∧ (¬ e.purge_after ≤ now
          ∨ ((dictGet e.trashed_path fs).isSome = true
            ∧ (".trash".data) ∈ splitSlash e.trashed_path ∧ e.trashed_path ∈ failSet)))
    ∧ (∀ e, e ∈ entries → ¬ e.purge_after ≤ now →
        e ∈ (purge_expired_trash now failSet fs entries).2) := by
  refine ⟨?_, ?_, ?_, ?_, ?_, ?_⟩
  · intro p st h
    exact purge_fold_fs_mono now failSet entries (fs, []) p st h
  · intro p h1 h2
    exact purge_fold_fs_removed now failSet entries (fs, []) p h1 h2
  · intro e he hexp hnf hkept
    rcases purge_fold_kept_src now failSet entries (fs, []) e hkept with h1 | ⟨_, h2 | h3⟩
    · exact absurd h1 (by simp)
    · exact h2 hexp
    · exact hnf h3.2.2
  · intro e he hexp habs hkept
    rcases purge_fold_kept_src now failSet entries (fs, []) e hkept with h1 | ⟨_, h2 | h3⟩
    · exact absurd h1 (by simp)
    · exact h2 hexp
    · rw [h3.1] at habs; exact absurd habs (by simp)
  · intro e hkept
    rcases purge_fold_kept_src now failSet entries (fs, []) e hkept with h1 | ⟨hx, hc⟩
    · exact absurd h1 (by simp)
    · exact ⟨hx, hc⟩
  · intro e he hne
    exact purge_fold_kept_notexp now failSet entries (fs, []) e he hne

/-- C8 witness entry: expired, trashed under .trash. -/
def c8Entry : TrashEntry :=
  { library_id := 1, media_item_id := 3, original_path := "/lib/a.mkv".data,
    trashed_path := "/lib/.trash/a.mkv".data, trashed_at := 0, purge_after := 5 }

/-- C8 witness: the purge theorem applied at one expired entry whose
deletion succeeds; the entry row is removed. -/
theorem c8_purge_never_deletes_outside_trash_witness :
    c8Entry ∉ (purge_expired_trash 10 [] [("/lib/.trash/a.mkv".data, ⟨5, 7⟩)] [c8Entry]).2 :=
  (c8_purge_never_deletes_outside_trash 10 [] [("/lib/.trash/a.mkv".data, ⟨5, 7⟩)]
    [c8Entry]).2.2.1 c8Entry (by decide) (by decide) (by decide)

theorem mem_of_mem_set (l : List MediaItem) (k : Nat) (a j : MediaItem) (h : j ∈ l.set k a) :
    j = a ∨ j ∈ l := by
  induction l generalizing k with
  | nil => rw [List.set_nil] at h; exact absurd h (by simp)
  | cons i rest ih =>
    cases k with
    | zero =>
      rw [List.set_cons_zero] at h
      rcases List.mem_cons.mp h with h1 | h1
      · exact Or.inl h1
      · exact Or.inr (List.mem_cons_of_mem _ h1)
    | succ k2 =>
      rw [List.set_cons_succ] at h
      rcases List.mem_cons.mp h with h1 | h1
      · exact Or.inr (by rw [h1]; exact List.mem_cons_self _ _)
      · rcases ih k2 h1 with h2 | h2
        · exact Or.inl h2
        · exact Or.inr (List.mem_cons_of_mem _ h2)

theorem setById_mem (iid : Nat) (f : MediaItem → MediaItem) (l : List MediaItem) (j : MediaItem)
    (h : j ∈ setById iid f l) : j ∈ l ∨ ∃ i, i ∈ l ∧ j = f i := by
  induction l with
  | nil => exact absurd h (by simp [setById])
  | cons i rest ih =>
    unfold setById at h
    by_cases hid : i.id = iid
    · rw [if_pos hid] at h
      rcases List.mem_cons.mp h with h1 | h1
      · exact Or.inr ⟨i, List.mem_cons_self _ _, h1⟩
      · exact Or.inl (List.mem_cons_of_mem _ h1)
    · rw [if_neg hid] at h
      rcases List.mem_cons.mp h with h1 | h1
      · exact Or.inl (by rw [h1]; exact List.mem_cons_self _ _)
      · rcases ih h1 with h2 | ⟨i2, hi2, he2⟩
        · exact Or.inl (List.mem_cons_of_mem _ h2)
        · exact Or.inr ⟨i2, List.mem_cons_of_mem _ hi2, he2⟩

set_option maxHeartbeats 1000000 in
theorem applyTorrent_flags_pres (t : Torrent) (i : MediaItem) :
    (applyTorrent t i).1.is_in_trash = i.is_in_trash
    ∧ (applyTorrent t i).1.is_missing = i.is_missing := by
  unfold applyTorrent
  cases hr : t.ratio <;> cases hs : t.seeding_time <;> cases hn : t.num_seeds <;>
    cases hl : t.num_leechs <;> dsimp only <;> split_ifs <;> exact ⟨rfl, rfl⟩

theorem clearTorrent_flags_pres (i : MediaItem) :
    (clearTorrent i).1.is_in_trash = i.is_in_trash
    ∧ (clearTorrent i).1.is_missing = i.is_missing := by
  simp only [clearTorrent]
  split_ifs <;> exact ⟨rfl, rfl⟩

theorem syncItem_flags_pres (index : List (Str × Torrent))
    (bIndex : List (Str × List (Torrent × Option Int))) (maps : SuffixMaps) (i : MediaItem) :
    (syncItem index bIndex maps i).1.is_in_trash = i.is_in_trash
    ∧ (syncItem index bIndex maps i).1.is_missing = i.is_missing := by
  unfold syncItem
  cases matchItem index bIndex maps i with
  | some t => exact applyTorrent_flags_pres t i
  | none => exact clearTorrent_flags_pres i

theorem sync_pres_inv (lib : Library) (torrents : List Torrent) (items : List MediaItem)
    (h : ∀ j ∈ items, ¬(j.is_in_trash = true ∧ j.is_missing = true)) :
    ∀ j ∈ (sync_library_torrents lib torrents items).1,
      ¬(j.is_in_trash = true ∧ j.is_missing = true) := by
  unfold sync_library_torrents
  split
  · exact h
  · intro j hj
    dsimp only at hj
    rw [List.map_map] at hj
    obtain ⟨i, hi, he⟩ := List.mem_map.mp hj
    have he2 : (syncItem (build_torrent_index lib torrents).1
        (build_torrent_index lib torrents).2 (buildSuffixMaps items) i).1 = j := he
    intro hcon
    refine h i hi ⟨?_, ?_⟩
    · rw [← (syncItem_flags_pres (build_torrent_index lib torrents).1
        (build_torrent_index lib torrents).2 (buildSuffixMaps items) i).1, he2]
      exact hcon.1
    · rw [← (syncItem_flags_pres (build_torrent_index lib torrents).1
        (build_torrent_index lib torrents).2 (buildSuffixMaps items) i).2, he2]
      exact hcon.2

/-- One operation of the engine acting on the whole state: a reconcile scan
with some mid-walk vanish set, a torrent sync against some client listing, a
move to trash of the row at a position, or a restore of an entry. -/
inductive Step (lib : Library) : SysState → SysState → Prop
  | reconcile (vanished : List Str) (st : SysState) :
      Step lib st ⟨st.fs, (scan_library lib st.fs vanished st.items).1, st.entries⟩
  | torrent_sync (torrents : List Torrent) (st : SysState) :
      Step lib st ⟨st.fs, (sync_library_torrents lib torrents st.items).1, st.entries⟩
  | to_trash (now : Int) (k : Nat) (st : SysState) :
      Step lib st (move_to_trash lib now st k).1
  | restore (e : TrashEntry) (st : SysState) :
      Step lib st (restore_from_trash lib st e).1

theorem step_pres_inv (lib : Library) (st st2 : SysState) (hs : Step lib st st2)
    (h : ∀ j ∈ st.items, ¬(j.is_in_trash = true ∧ j.is_missing = true)) :
    ∀ j ∈ st2.items, ¬(j.is_in_trash = true ∧ j.is_missing = true) := by
  cases hs with
  | reconcile vanished => exact scan_library_inv lib st.fs vanished st.items h
  | torrent_sync torrents => exact sync_pres_inv lib torrents st.items h
  | to_trash now k =>
    intro j hj
    cases hk : st.items.get? k with
    | none => simp only [move_to_trash, hk] at hj; exact h j hj
    | some item =>
      simp only [move_to_trash, hk] at hj
      split at hj
      · exact h j hj
      · split at hj
        · exact h j hj
        · rcases mem_of_mem_set _ _ _ _ hj with h1 | h1
          · rw [h1]
            intro hcon
            exact absurd hcon.2 (by simp)
          · exact h j h1
  | restore e =>
    intro j hj
    simp only [restore_from_trash] at hj
    split at hj
    · exact h j hj
    · split at hj
      · rcases setById_mem _ _ _ _ hj with h1 | ⟨i, hi, he⟩
        · exact h j h1
        · rw [he]
          intro hcon
          exact absurd hcon.1 (by simp)
      · exact h j hj

theorem get?_set_self (l : List MediaItem) (k : Nat) (a b : MediaItem) (h : l.get? k = some b) :
    (l.set k a).get? k = some a := by
  induction l generalizing k with
  | nil => rw [List.get?_nil] at h; exact absurd h (by simp)
  | cons i rest ih =>
    cases k with
    | zero => rfl
    | succ k2 =>
      rw [List.set_cons_succ]
      exact ih k2 h

/-- C5: starting from any state whose rows never have is_in_trash and
is_missing both set, any sequence of reconcile scans, torrent syncs, moves
to trash and restores preserves that; and move-to-trash clears is_missing in
the same write that sets is_in_trash. -/
theorem c5_never_trashed_and_missing (lib : Library) (st st2 : SysState)
    (hinv : ∀ j ∈ st.items, ¬(j.is_in_trash = true ∧ j.is_missing = true))
    (hsteps : Relation.ReflTransGen (Step lib) st st2) :
    (∀ j ∈ st2.items, ¬(j.is_in_trash = true ∧ j.is_missing = true))
    ∧ (∀ now k item, st.items.get? k = some item → item.is_in_trash = false →
        (dictGet item.path st.fs).isSome = true →
        ∃ i2, (move_to_trash lib now st k).1.items.get? k = some i2
          ∧ i2.is_in_trash = true ∧ i2.is_missing = false) := by
  constructor
  · induction hsteps with
    | refl => exact hinv
    | tail hs hstep ih => exact step_pres_inv lib _ _ hstep ih
  · intro now k item hk hnt hex
    refine ⟨{ item with
      is_in_trash := true
      is_missing := false
      trashed_at := some now
      trashed_path := some (trashDst lib item.path) }, ?_, rfl, rfl⟩
    simp only [move_to_trash, hk]
    rw [if_neg (by rw [hnt]; simp), if_neg (by rw [hex]; simp)]
    exact get?_set_self st.items k _ item hk

/-- C5 witness: the invariant theorem at a concrete state, the empty step
sequence, and its move-to-trash clause at row zero. -/
theorem c5_never_trashed_and_missing_witness :
    ∃ i2, (move_to_trash c1Lib 0 ⟨c2Fs, [c10Item], []⟩ 0).1.items.get? 0 = some i2
      ∧ i2.is_in_trash = true ∧ i2.is_missing = false :=
  (c5_never_trashed_and_missing c1Lib ⟨c2Fs, [c10Item], []⟩ ⟨c2Fs, [c10Item], []⟩
    (by decide) Relation.ReflTransGen.refl).2 0 0 c10Item (by decide) (by decide) (by decide)

theorem splitSlashAux_append (a b : Str) (acc : Str) :
    splitSlashAux (a ++ '/' :: b) acc = splitSlashAux a acc ++ splitSlash b := by
  induction a generalizing acc with
  | nil => rfl
  | cons c rest ih =>
    by_cases hc : c = '/'
    · simp only [List.cons_append, splitSlashAux, hc, if_pos]
      exact congrArg (fun t => acc.reverse :: t) (ih [])
    · simp only [List.cons_append, splitSlashAux, hc, if_neg, ite_false]
      exact ih (c :: acc)

theorem splitSlash_pathJoin (a b : Str) :
    splitSlash (pathJoin a b) = splitSlash a ++ splitSlash b := by
  unfold pathJoin splitSlash
  exact splitSlashAux_append a b []

theorem trashDst_has_trash (lib : Library) (src : Str) :
    (".trash".data) ∈ splitSlash (trashDst lib src) := by
  have hroot : (".trash".data) ∈ splitSlash (trash_root lib) := by
    unfold trash_root
    rw [splitSlash_pathJoin]
    refine List.mem_append_right _ ?_
    show (".trash".data) ∈ splitSlash (".trash".data)
    decide
  unfold trashDst
  cases relTo lib.root_path src with
  | none =>
    dsimp only
    rw [splitSlash_pathJoin]
    exact List.mem_append_left _ hroot
  | some r =>
    dsimp only
    by_cases hr : r = []
    · rw [if_pos hr]
      exact hroot
    · rw [if_neg hr, splitSlash_pathJoin]
      exact List.mem_append_left _ hroot

theorem fsInsert_get (q p : Str) (st : Stat) (fs : Fs) :
    dictGet p (fsInsert q st fs) = if q = p then some st else dictGet p fs := by
  unfold fsInsert
  by_cases h : q = p
  · simp [dictGet, h]
  · show (if q = p then some st else dictGet p (fs.filter (fun e => decide (e.1 ≠ q)))) = _
    rw [if_neg h, if_neg h]
    rw [show fs.filter (fun e => decide (e.1 ≠ q)) = fsErase q fs from rfl, fsErase_get]
    rw [if_neg (fun hc => h hc.symm)]

theorem fsMove_get_dst (src dst : Str) (fs : Fs) (st : Stat) (h : dictGet src fs = some st) :
    dictGet dst (fsMove src dst fs) = some st := by
  unfold fsMove
  rw [h, fsInsert_get, if_pos rfl]

theorem removeFirst_append_self (e : TrashEntry) (l : List TrashEntry) (h : e ∉ l) :
    removeFirst e (l ++ [e]) = l := by
  induction l with
  | nil => simp [removeFirst]
  | cons x rest ih =>
    have hx : ¬ x = e := fun hc => h (by rw [hc]; exact List.mem_cons_self _ _)
    rw [List.cons_append]
    unfold removeFirst
    rw [if_neg hx, ih (fun hc => h (List.mem_cons_of_mem _ hc))]

theorem set_eq_of_get? (l : List Nat) (k : Nat) (a : Nat) (h : l.get? k = some a) :
    l.set k a = l := by
  induction l generalizing k with
  | nil => rfl
  | cons x rest ih =>
    cases k with
    | zero =>
      rw [List.set_cons_zero]
      injection h with h2
      rw [h2]
    | succ k2 =>
      rw [List.set_cons_succ, ih k2 h]

theorem setById_eq_set (f : MediaItem → MediaItem) (l : List MediaItem) :
    ∀ (k : Nat) (it : MediaItem), (l.map MediaItem.id).Nodup → l.get? k = some it →
      setById it.id f l = l.set k (f it) := by
  induction l with
  | nil =>
    intro k it _ hk
    rw [List.get?_nil] at hk
    exact absurd hk (by simp)
  | cons i rest ih =>
    intro k it hnd hk
    cases k with
    | zero =>
      have h0 : i = it := by
        rw [List.get?_cons_zero] at hk
        injection hk
      subst h0
      unfold setById
      rw [if_pos rfl, List.set_cons_zero]
    | succ k2 =>
      rw [List.get?_cons_succ] at hk
      have hmem : it ∈ rest := List.get?_mem hk
      have hne : ¬ i.id = it.id := by
        intro hc
        rw [List.map_cons, List.nodup_cons] at hnd
        exact hnd.1 (hc ▸ List.mem_map_of_mem MediaItem.id hmem)
      unfold setById
      rw [if_neg hne, List.set_cons_succ,
        ih k2 it (by rw [List.map_cons, List.nodup_cons] at hnd; exact hnd.2) hk]

/-- The row state move_to_trash writes at lines 50 to 53, named for the
round-trip statement. -/
def trashedItem (lib : Library) (now : Int) (item : MediaItem) : MediaItem :=
  { item with
    is_in_trash := true
    is_missing := false
    trashed_at := some now
    trashed_path := some (trashDst lib item.path) }

/-- The TrashEntry move_to_trash inserts at lines 55 to 62, named for the
round-trip statement. -/
def trashEntryOf (lib : Library) (now : Int) (item : MediaItem) : TrashEntry :=
  { library_id := lib.id
    media_item_id := item.id
    original_path := item.path
    trashed_path := trashDst lib item.path
    trashed_at := now
    purge_after := now + lib.trash_retention_days }

/-- C7: on a non-trashed row whose file exists, move-to-trash reports the
move and, restoring the TrashEntry it created, the file is back at the
original path, the row at the same position has is_in_trash false,
trashed_path null, its path and id unchanged, and the TrashEntry is gone. -/
theorem c7_trash_restore_round_trip (lib : Library) (now : Int) (st : SysState) (k : Nat)
    (item : MediaItem)
    (hk : st.items.get? k = some item)
    (hnt : item.is_in_trash = false)
    (hex : (dictGet item.path st.fs).isSome = true)
    (hids : (st.items.map MediaItem.id).Nodup)
    (hfresh : trashEntryOf lib now item ∉ st.entries) :
    (move_to_trash lib now st k).2
      = MoveResult.moved (trashDst lib item.path) (now + lib.trash_retention_days)
    ∧ (restore_from_trash lib (move_to_trash lib now st k).1 (trashEntryOf lib now item)).2
      = RestoreResult.restored item.path
    ∧ (dictGet item.path
        (restore_from_trash lib (move_to_trash lib now st k).1
          (trashEntryOf lib now item)).1.fs).isSome = true
    ∧ (restore_from_trash lib (move_to_trash lib now st k).1
        (trashEntryOf lib now item)).1.entries = st.entries
    ∧ ∃ i2, (restore_from_trash lib (move_to_trash lib now st k).1
          (trashEntryOf lib now item)).1.items.get? k = some i2
        ∧ i2.is_in_trash = false ∧ i2.trashed_path = none ∧ i2.path = item.path
        ∧ i2.id = item.id := by
  obtain ⟨st0, hst0⟩ := Option.isSome_iff_exists.mp hex
  have hmove : move_to_trash lib now st k
      = (⟨fsMove item.path (trashDst lib item.path) st.fs,
          st.items.set k (trashedItem lib now item),
          st.entries ++ [trashEntryOf lib now item]⟩,
         MoveResult.moved (trashDst lib item.path) (now + lib.trash_retention_days)) := by
    simp only [move_to_trash, hk]
    rw [if_neg (by rw [hnt]; simp), if_neg (by rw [hex]; simp)]
    rfl
  rw [hmove]
  have hdst : dictGet (trashDst lib item.path)
      (fsMove item.path (trashDst lib item.path) st.fs) = some st0 :=
    fsMove_get_dst item.path (trashDst lib item.path) st.fs st0 hst0
  have hrestore : restore_from_trash lib
      (⟨fsMove item.path (trashDst lib item.path) st.fs,
        st.items.set k (trashedItem lib now item),
        st.entries ++ [trashEntryOf lib now item]⟩ : SysState)
      (trashEntryOf lib now item)
      = (⟨fsMove (trashDst lib item.path) item.path
            (fsMove item.path (trashDst lib item.path) st.fs),
          setById item.id
            (fun i => { i with
              is_in_trash := false
              trashed_at := none
              trashed_path := none
              path := item.path })
            (st.items.set k (trashedItem lib now item)),
          removeFirst (trashEntryOf lib now item)
            (st.entries ++ [trashEntryOf lib now item])⟩,
         RestoreResult.restored item.path) := by
    unfold restore_from_trash
    rw [if_neg (by
      show ¬ (dictGet (trashEntryOf lib now item).trashed_path _).isSome = false
      rw [show (trashEntryOf lib now item).trashed_path = trashDst lib item.path from rfl]
      rw [hdst]
      simp)]
    rw [if_pos (by
      show (".trash".data) ∈ splitSlash (trashEntryOf lib now item).trashed_path
      exact trashDst_has_trash lib item.path)]
    rfl
  rw [hrestore]
  refine ⟨rfl, rfl, ?_, ?_, ?_⟩
  · rw [fsMove_get_dst (trashDst lib item.path) item.path
      (fsMove item.path (trashDst lib item.path) st.fs) st0 hdst]
    rfl
  · exact removeFirst_append_self _ st.entries hfresh
  · have hnd2 : ((st.items.set k (trashedItem lib now item)).map MediaItem.id).Nodup := by
      rw [List.map_set]
      have hsame : (st.items.map MediaItem.id).set k item.id = st.items.map MediaItem.id := by
        refine set_eq_of_get? _ k item.id ?_
        rw [List.get?_map, hk]
        rfl
      rw [show (trashedItem lib now item).id = item.id from rfl, hsame]
      exact hids
    have hget2 : (st.items.set k (trashedItem lib now item)).get? k
        = some (trashedItem lib now item) :=
      get?_set_self st.items k _ item hk
    rw [show (item.id : Nat) = (trashedItem lib now item).id from rfl]
    rw [setById_eq_set _ _ k _ hnd2 hget2]
    rw [List.set_set]
    refine ⟨_, get?_set_self st.items k _ item hk, rfl, rfl, rfl, rfl⟩

/-- C7 witness: the round trip at a concrete library, disk and row. -/
theorem c7_trash_restore_round_trip_witness :
    (move_to_trash c1Lib 0 ⟨c2Fs, [c10Item], []⟩ 0).2
      = MoveResult.moved (trashDst c1Lib c10Item.path)
          (0 + c1Lib.trash_retention_days) :=
  (c7_trash_restore_round_trip c1Lib 0 ⟨c2Fs, [c10Item], []⟩ 0 c10Item (by decide) (by decide)
    (by decide) (by decide) (by decide)).1

set_option maxHeartbeats 1000000 in
theorem applyTorrent_hash (t : Torrent) (i : MediaItem) :
    (applyTorrent t i).1.torrent_hash = t.hash := by
  unfold applyTorrent
  cases hr : t.ratio <;> cases hs : t.seeding_time <;> cases hn : t.num_seeds <;>
    cases hl : t.num_leechs <;> dsimp only <;> split_ifs <;> simp_all

set_option maxHeartbeats 1000000 in
theorem applyTorrent_ratio (t : Torrent) (i : MediaItem) :
    (applyTorrent t i).1.torrent_ratio
      = match t.ratio with | some r => some r | none => i.torrent_ratio := by
  unfold applyTorrent
  cases hr : t.ratio <;> cases hs : t.seeding_time <;> cases hn : t.num_seeds <;>
    cases hl : t.num_leechs <;> dsimp only <;> split_ifs <;> simp_all

set_option maxHeartbeats 1000000 in
theorem applyTorrent_seed_time (t : Torrent) (i : MediaItem) :
    (applyTorrent t i).1.torrent_seed_time
      = match t.seeding_time with | some v => some v | none => i.torrent_seed_time := by
  unfold applyTorrent
  cases hr : t.ratio <;> cases hs : t.seeding_time <;> cases hn : t.num_seeds <;>
    cases hl : t.num_leechs <;> dsimp only <;> split_ifs <;> simp_all

set_option maxHeartbeats 1000000 in
theorem applyTorrent_seeders (t : Torrent) (i : MediaItem) :
    (applyTorrent t i).1.torrent_seeders
      = match t.num_seeds with | some v => some v | none => i.torrent_seeders := by
  unfold applyTorrent
  cases hr : t.ratio <;> cases hs : t.seeding_time <;> cases hn : t.num_seeds <;>
    cases hl : t.num_leechs <;> dsimp only <;> split_ifs <;> simp_all

set_option maxHeartbeats 1000000 in
theorem applyTorrent_leechers (t : Torrent) (i : MediaItem) :
    (applyTorrent t i).1.torrent_leechers
      = match t.num_leechs with | some v => some v | none => i.torrent_leechers := by
  unfold applyTorrent
  cases hr : t.ratio <;> cases hs : t.seeding_time <;> cases hn : t.num_seeds <;>
    cases hl : t.num_leechs <;> dsimp only <;> split_ifs <;> simp_all

set_option maxHeartbeats 1000000 in
theorem applyTorrent_changed (t : Torrent) (i : MediaItem) :
    (applyTorrent t i).2 = true ↔
      (i.torrent_hash ≠ t.hash
        ∨ (∃ r, t.ratio = some r ∧ i.torrent_ratio ≠ some r)
        ∨ (∃ v, t.seeding_time = some v ∧ i.torrent_seed_time ≠ some v)
        ∨ (∃ v, t.num_seeds = some v ∧ i.torrent_seeders ≠ some v)
        ∨ (∃ v, t.num_leechs = some v ∧ i.torrent_leechers ≠ some v)) := by
  unfold applyTorrent
  cases hr : t.ratio <;> cases hs : t.seeding_time <;> cases hn : t.num_seeds <;>
    cases hl : t.num_leechs <;> dsimp only <;> split_ifs <;> simp_all

set_option maxHeartbeats 1000000 in
theorem applyTorrent_count_iff (t : Torrent) (i : MediaItem) :
    (applyTorrent t i).2 = true ↔ torrentFields (applyTorrent t i).1 ≠ torrentFields i := by
  rw [applyTorrent_changed]
  unfold torrentFields
  rw [applyTorrent_hash, applyTorrent_ratio, applyTorrent_seed_time, applyTorrent_seeders,
    applyTorrent_leechers]
  cases t.ratio <;> cases t.seeding_time <;> cases t.num_seeds <;> cases t.num_leechs <;>
    (simp [Prod.ext_iff]; tauto)

theorem clearTorrent_result (i : MediaItem) :
    torrentFields (clearTorrent i).1
      = ((none : Option Str), (none : Option ℚ), (none : Option Int), (none : Option Int),
         (none : Option Int)) := by
  by_cases h1 : i.torrent_hash = none <;> by_cases h2 : i.torrent_ratio = none <;>
    by_cases h3 : i.torrent_seed_time = none <;> by_cases h4 : i.torrent_seeders = none <;>
      by_cases h5 : i.torrent_leechers = none <;>
        simp [clearTorrent, torrentFields, h1, h2, h3, h4, h5]

theorem clearTorrent_changed (i : MediaItem) :
    (clearTorrent i).2 = true ↔
      torrentFields i ≠ ((none : Option Str), (none : Option ℚ), (none : Option Int),
        (none : Option Int), (none : Option Int)) := by
  by_cases h1 : i.torrent_hash = none <;> by_cases h2 : i.torrent_ratio = none <;>
    by_cases h3 : i.torrent_seed_time = none <;> by_cases h4 : i.torrent_seeders = none <;>
      by_cases h5 : i.torrent_leechers = none <;>
        simp [clearTorrent, torrentFields, Prod.ext_iff, h1, h2, h3, h4, h5]

theorem syncItem_count_iff (index : List (Str × Torrent))
    (bIndex : List (Str × List (Torrent × Option Int))) (maps : SuffixMaps) (i : MediaItem) :
    (syncItem index bIndex maps i).2 = true
      ↔ torrentFields (syncItem index bIndex maps i).1 ≠ torrentFields i := by
  unfold syncItem
  cases matchItem index bIndex maps i with
  | some t => exact applyTorrent_count_iff t i
  | none =>
    rw [clearTorrent_changed, clearTorrent_result]
    exact ne_comm

theorem sync_count (f : MediaItem → MediaItem × Bool)
    (hf : ∀ i, (f i).2 = true ↔ torrentFields (f i).1 ≠ torrentFields i) :
    ∀ items : List MediaItem,
      ((items.map f).filter Prod.snd).length
        = ((items.zip ((items.map f).map Prod.fst)).filter
            (fun pr => decide (torrentFields pr.2 ≠ torrentFields pr.1))).length := by
  intro items
  induction items with
  | nil => rfl
  | cons i rest ih =>
    simp only [List.map_cons, List.zip_cons_cons, List.filter_cons]
    by_cases hc : (f i).2 = true
    · have hne := (hf i).mp hc
      simp [hc, hne, ih]
    · have heq : torrentFields (f i).1 = torrentFields i := by
        by_contra hne
        exact hc ((hf i).mpr hne)
      rw [if_neg hc, if_neg (by simp [heq])]
      exact ih

theorem zip_self_no_change (items : List MediaItem) :
    ((items.zip items).filter
      (fun pr => decide (torrentFields pr.2 ≠ torrentFields pr.1))).length = 0 := by
  induction items with
  | nil => rfl
  | cons i rest ih =>
    rw [List.zip_cons_cons, List.filter_cons]
    rw [if_neg (by simp)]
    exact ih

/-- C6: the sync pass returns exactly the number of rows whose torrent
attribution tuple actually changed; on a match every field is compared
before writing, so the change flag holds exactly when the written tuple
differs; on no match all five fields come out null and the flag holds
exactly when some field was non-null. -/
theorem c6_sync_updates_exactly_changed (lib : Library) (torrents : List Torrent)
    (items : List MediaItem) :
    (sync_library_torrents lib torrents items).2
      = ((items.zip (sync_library_torrents lib torrents items).1).filter
          (fun pr => decide (torrentFields pr.2 ≠ torrentFields pr.1))).length
    ∧ (∀ t i, ((applyTorrent t i).2 = true
        ↔ torrentFields (applyTorrent t i).1 ≠ torrentFields i))
    ∧ (∀ i, torrentFields (clearTorrent i).1
        = ((none : Option Str), (none : Option ℚ), (none : Option Int), (none : Option Int),
           (none : Option Int)))
    ∧ (∀ i, ((clearTorrent i).2 = true
        ↔ torrentFields i ≠ ((none : Option Str), (none : Option ℚ), (none : Option Int),
            (none : Option Int), (none : Option Int)))) := by
  refine ⟨?_, applyTorrent_count_iff, clearTorrent_result, clearTorrent_changed⟩
  unfold sync_library_torrents
  split
  · dsimp only
    rw [zip_self_no_change]
  · dsimp only
    exact (sync_count
      (syncItem (build_torrent_index lib torrents).1 (build_torrent_index lib torrents).2
        (buildSuffixMaps items))
      (syncItem_count_iff (build_torrent_index lib torrents).1
        (build_torrent_index lib torrents).2 (buildSuffixMaps items)) items)

end MW
